import Mathlib

/-!
Verification development for the "Today's Quote" scheduling subsystem of the
smriti backend (app/quotes/). The Python source is shallowly embedded:

* MongoDB documents of the `user_daily_quotes` collection become the `QRec`
  structure; the collection itself is a `List QRec`; `update_one` with an
  equality filter becomes first-match replacement; `modified_count > 0`
  becomes a decidable comparison of the document before and after `$set`.
* Instants (`datetime` values) are integers (seconds); timedeltas such as
  `timedelta(hours=1)` become the corresponding number of seconds.
* `random.randint(a, b)` is modelled by an extra integer parameter `r`
  carrying the drawn value, constrained to `a ≤ r ≤ b` in theorems.
* Python strings are `List Char`; `str.replace`, `str.strip`, `re.split`
  and `re.sub` are given executable models mirroring their semantics on
  the patterns the source uses.
-/

/-! ## Scheduling record store (app/quotes/repository.py)

One `QRec` per document of `user_daily_quotes`; `rid` stands for the
Mongo `_id`. -/

structure QRec where
  rid : Nat
  user_id : String
  day_key : String
  day_sunrise_utc : Int
  next_sunrise_utc : Int
  scheduled_push_time_utc : Int
  push_sent : Bool
  push_sent_at_utc : Option Int
  quote_text : Option String
  source_post_id : Option String
  source_author_user_id : Option String
  source_author_username : Option String
  created_at_utc : Int
  updated_at_utc : Int
deriving DecidableEq

/-- The `$set` document used by `mark_quote_sent` and
`mark_quote_sent_by_user_day` (repository.py lines 145-158 and 190-203),
applied to a stored record. -/
def applySentUpdate (now : Int) (qt sp sa su : Option String) (r : QRec) : QRec :=
  { r with
    push_sent := true
    push_sent_at_utc := some now
    quote_text := qt
    source_post_id := sp
    source_author_user_id := sa
    source_author_username := su
    updated_at_utc := now }

/-- `mark_quote_sent` (repository.py lines 120-160): `update_one` filtered by
`_id` only. It updates the first matching document and returns
`modified_count > 0`, i.e. whether the matched document actually changed. -/
def mark_quote_sent (store : List QRec) (recordId : Nat) (now : Int)
    (qt sp sa su : Option String) : List QRec × Bool :=
  match store with
  | [] => ([], false)
  | r :: rest =>
    if r.rid == recordId then
      let r' := applySentUpdate now qt sp sa su r
      (r' :: rest, decide (r' ≠ r))
    else
      let p := mark_quote_sent rest recordId now qt sp sa su
      (r :: p.1, p.2)

/-- `mark_quote_sent_by_user_day` (repository.py lines 163-205): the same
unconditional `$set`, with the filter `{user_id, day_key}`. -/
def mark_quote_sent_by_user_day (store : List QRec) (uid dk : String) (now : Int)
    (qt sp sa su : Option String) : List QRec × Bool :=
  match store with
  | [] => ([], false)
  | r :: rest =>
    if r.user_id == uid && r.day_key == dk then
      let r' := applySentUpdate now qt sp sa su r
      (r' :: rest, decide (r' ≠ r))
    else
      let p := mark_quote_sent_by_user_day rest uid dk now qt sp sa su
      (r :: p.1, p.2)

/-- `get_pending_pushes` (repository.py lines 212-232): records with
`push_sent = false` and `scheduled_push_time_utc <= before_time`, capped
at 1000. -/
def pendingPred (now : Int) (r : QRec) : Bool :=
  !r.push_sent && decide (r.scheduled_push_time_utc ≤ now)

def get_pending_pushes (store : List QRec) (now : Int) : List QRec :=
  (store.filter (pendingPred now)).take 1000

/-- `MAX_HISTORY_LIMIT` (constants.py). -/
def MAX_HISTORY_LIMIT : Nat := 50

/-- The history query filter (repository.py lines 262-266):
`user_id = uid AND push_sent = true AND quote_text != null`. -/
def historyPred (uid : String) (r : QRec) : Bool :=
  r.user_id == uid && r.push_sent && !(r.quote_text == none)

/-- Mongo's descending sort key on `day_key` (BSON strings compare
lexicographically). -/
def dayKeyDesc (a b : QRec) : Bool := decide (b.day_key ≤ a.day_key)

/-- `get_quote_history` (repository.py lines 235-279): clamp the limit to
`MAX_HISTORY_LIMIT`, filter, sort by `day_key` descending, then
`skip`/`limit` paginate.  Returns `(documents, total)`. -/
def get_quote_history (store : List QRec) (uid : String) (skip limit : Nat) :
    List QRec × Nat :=
  let lim := min limit MAX_HISTORY_LIMIT
  let matching := store.filter (historyPred uid)
  let sorted := matching.mergeSort dayKeyDesc
  (((sorted.drop skip).take lim), matching.length)

/-! ## Status query service (app/quotes/service.py, get_today_quote) -/

inductive TodayStatus where
  | pending
  | delivered
  | unavailable
deriving DecidableEq

structure TodayQuoteView where
  has_quote : Bool
  status : TodayStatus
  quote_text : Option String
deriving DecidableEq

/-- Python truthiness of `record.get("quote_text")`: `None` and the empty
string are falsy. -/
def pyTruthyStr : Option String → Bool
  | none => false
  | some s => !(s == "")

/-- `get_today_quote` (service.py lines 40-113), with the user's current
`day_key` (computed by the sunrise calculator) passed in.  The record is
looked up by `(user_id, day_key)` as in `get_quote_for_user_day`
(repository.py lines 25-40); the three-way state mapping follows the
source: missing record or `push_sent` falsy → pending; `quote_text` falsy
→ unavailable; otherwise delivered. -/
def get_today_quote (store : List QRec) (uid dk : String) : TodayQuoteView :=
  match store.find? (fun r => r.user_id == uid && r.day_key == dk) with
  | none => ⟨false, .pending, none⟩
  | some r =>
    if !r.push_sent then ⟨false, .pending, none⟩
    else if !pyTruthyStr r.quote_text then ⟨false, .unavailable, none⟩
    else ⟨true, .delivered, r.quote_text⟩

/-! ## Day initializer (app/quotes/service.py, initialize_daily_quotes)

Per user, the loop body either skips (record exists), creates a record, or
falls into the generic `except Exception` handler.  `create_daily_quote_record`
can raise `DuplicateKeyError` (unique index race) or any other error; both
land in the same handler.  The per-user external outcomes are injected as
data. -/

inductive CreateResult where
  | ok
  | duplicateKeyError
  | otherError
deriving DecidableEq

structure InitUser where
  existsAlready : Bool
  createResult : CreateResult
deriving DecidableEq

structure CronInitCounts where
  initialized : Nat
  skipped : Nat
  errored : Nat
deriving DecidableEq

/-- One iteration of the user loop in `initialize_daily_quotes`
(service.py lines 182-224). -/
def initStep (c : CronInitCounts) (u : InitUser) : CronInitCounts :=
  if u.existsAlready then { c with skipped := c.skipped + 1 }
  else
    match u.createResult with
    | .ok => { c with initialized := c.initialized + 1 }
    | .duplicateKeyError => { c with errored := c.errored + 1 }
    | .otherError => { c with errored := c.errored + 1 }

/-- `initialize_daily_quotes` (service.py lines 152-235). -/
def initialize_daily_quotes (users : List InitUser) : CronInitCounts :=
  users.foldl initStep ⟨0, 0, 0⟩

/-! ## Randomized scheduling (service.py, _generate_random_push_time)

`r` is the value drawn by the single `random.randint` call the executed
branch makes: `randint(5, 15)` minutes in the fallback branch,
`randint(0, window_seconds)` seconds otherwise. -/

def generate_random_push_time (daySunrise nextSunrise nowUtc : Int) (r : Int) : Int :=
  let earliest0 := daySunrise + 3600
  let minDelay := nowUtc + 300
  let earliest := if earliest0 < minDelay then minDelay else earliest0
  let latest := nextSunrise - 3600
  if latest ≤ earliest then nowUtc + r * 60
  else earliest + r

/-! ## Day-boundary calculator (app/quotes/sunrise.py)

The astral sunrise computation is deterministic per (latitude, longitude,
timezone, date); for a fixed location it is abstracted as a function
`S : Int → Int` from local calendar dates (day indices) to sunrise instants
(UTC), and the local calendar date of an instant as `localDateOf`. -/

structure SunriseInfo where
  day_key : Int
  day_sunrise_utc : Int
  next_sunrise_utc : Int
deriving DecidableEq

/-- `get_sunrise_times` (sunrise.py lines 79-133): sunrise of the given
date and of the following date. -/
def get_sunrise_times (S : Int → Int) (forDate : Int) : Int × Int :=
  (S forDate, S (forDate + 1))

/-- `get_sunrise_info_for_user` (sunrise.py lines 136-212): compute
today's/tomorrow's and yesterday's sunrises, then pick the sunrise-to-sunrise
day containing the reference instant. -/
def get_sunrise_info_for_user (S : Int → Int) (localDateOf : Int → Int)
    (nowUtc : Int) : SunriseInfo :=
  let localDate := localDateOf nowUtc
  let p1 := get_sunrise_times S localDate
  let todaySunrise := p1.1
  let tomorrowSunrise := p1.2
  let p2 := get_sunrise_times S (localDate - 1)
  let yesterdaySunrise := p2.1
  if todaySunrise ≤ nowUtc then ⟨localDate, todaySunrise, tomorrowSunrise⟩
  else ⟨localDate - 1, yesterdaySunrise, todaySunrise⟩

/-! ## Trigger authentication (app/quotes/dependencies.py, router.py)

`settings.CRON_SECRET : Optional[str]` (default `None`); `if not
settings.CRON_SECRET` is true for `None` and for the empty string. -/

inductive CronAuth where
  | errorMissingSecret
  | errorInvalidSecret
  | authorized
deriving DecidableEq

/-- `verify_cron_secret` (dependencies.py lines 11-51): HTTP 500 when the
shared secret is unset, HTTP 401 when the header does not match. -/
def verify_cron_secret (cronSecret : Option String) (header : String) : CronAuth :=
  if cronSecret = none ∨ cronSecret = some "" then .errorMissingSecret
  else if some header ≠ cronSecret then .errorInvalidSecret
  else .authorized

inductive TriggerResponse where
  | status500 : TriggerResponse
  | status401 : TriggerResponse
  | status200 : CronInitCounts → TriggerResponse
deriving DecidableEq

/-- The `POST /internal/daily-quote-init` endpoint (router.py lines 105-129):
`verify_cron_secret` as a dependency, then `initialize_daily_quotes`. -/
def daily_quote_init_endpoint (cronSecret : Option String) (header : String)
    (users : List InitUser) : TriggerResponse :=
  match verify_cron_secret cronSecret header with
  | .errorMissingSecret => .status500
  | .errorInvalidSecret => .status401
  | .authorized => .status200 (initialize_daily_quotes users)

/-! ## C1: MarkDelivered is not a conditional update -/

/-- C1 (counterexample): `mark_quote_sent` is claimed to succeed only when the
stored `push_sent` is false and to leave `push_sent_at_utc` and the quote
fields unchanged after the first successful transition.  Against a record
that is already delivered (`push_sent = true`, `push_sent_at_utc = some 5`,
`quote_text = some "old"`), a second invocation at time 7 returns `true`
(the update applied) and overwrites `push_sent_at_utc` and `quote_text`. -/
theorem claim_C1_counterexample :
    (QRec.push_sent ⟨1, "u", "d", 0, 86400, 100, true, some 5, some "old",
        none, none, none, 0, 5⟩) = true
    ∧ (mark_quote_sent [⟨1, "u", "d", 0, 86400, 100, true, some 5, some "old",
        none, none, none, 0, 5⟩] 1 7 (some "new") none none none).2 = true
    ∧ ((mark_quote_sent [⟨1, "u", "d", 0, 86400, 100, true, some 5, some "old",
        none, none, none, 0, 5⟩] 1 7 (some "new") none none none).1.map
          (fun r => r.push_sent_at_utc)) = [some 7]
    ∧ ((mark_quote_sent [⟨1, "u", "d", 0, 86400, 100, true, some 5, some "old",
        none, none, none, 0, 5⟩] 1 7 (some "new") none none none).1.map
          (fun r => r.quote_text)) = [some "new"] := by decide

/-- C1 (amended): `mark_quote_sent` and `mark_quote_sent_by_user_day` filter
only on record identity, never on `push_sent`: whatever the stored
`push_sent` value, the `$set` is applied to the first matching record, and
the call returns `true` exactly when the stored document changed — so a
later invocation against an already-delivered record applies again and
overwrites `push_sent_at_utc` and the quote fields. -/
theorem claim_C1_amended (pre rest : List QRec) (r : QRec) (now : Int)
    (qt sp sa su : Option String)
    (hpre : ∀ x ∈ pre, x.rid ≠ r.rid)
    (hpre' : ∀ x ∈ pre, ¬(x.user_id = r.user_id ∧ x.day_key = r.day_key)) :
    mark_quote_sent (pre ++ r :: rest) r.rid now qt sp sa su
      = (pre ++ applySentUpdate now qt sp sa su r :: rest,
         decide (applySentUpdate now qt sp sa su r ≠ r))
    ∧ mark_quote_sent_by_user_day (pre ++ r :: rest) r.user_id r.day_key now qt sp sa su
      = (pre ++ applySentUpdate now qt sp sa su r :: rest,
         decide (applySentUpdate now qt sp sa su r ≠ r)) := by
  induction pre with
  | nil =>
    constructor
    · simp [mark_quote_sent]
    · simp [mark_quote_sent_by_user_day]
  | cons x xs ih =>
    have hx : (x.rid == r.rid) = false := by
      simp [hpre x (by simp)]
    have hx' : (x.user_id == r.user_id && x.day_key == r.day_key) = false := by
      have h := hpre' x (by simp)
      by_cases h1 : x.user_id = r.user_id
      · by_cases h2 : x.day_key = r.day_key
        · exact absurd ⟨h1, h2⟩ h
        · simp [h2]
      · simp [h1]
    obtain ⟨ih1, ih2⟩ := ih (fun y hy => hpre y (by simp [hy]))
      (fun y hy => hpre' y (by simp [hy]))
    constructor
    · simp [mark_quote_sent, hx, ih1]
    · simp [mark_quote_sent_by_user_day, hx', ih2]

/-- C1 (witness): the amended theorem applied to a one-record store holding
an already-delivered record. -/
theorem claim_C1_witness :
    (mark_quote_sent [⟨1, "u", "d", 0, 86400, 100, true, some 5, some "old",
        none, none, none, 0, 5⟩] 1 7 (some "new") none none none).2 = true := by
  have h := (claim_C1_amended [] []
    ⟨1, "u", "d", 0, 86400, 100, true, some 5, some "old", none, none, none, 0, 5⟩
    7 (some "new") none none none (by simp) (by simp)).1
  simp only [List.nil_append] at h
  rw [h]
  decide

/-! ## C2: window containment of the randomized push time -/

/-- C2 (counterexample): with window `[0, 7200)` and `now = 6900`, the
fallback branch fires and every admissible draw `r ∈ [5, 15]` lands at or
beyond the window end; at `r = 5` the result is exactly `7200`, violating
`scheduledDelivery < windowEnd`. -/
theorem claim_C2_counterexample :
    (5 : Int) ≤ 5 ∧ (5 : Int) ≤ 15
    ∧ generate_random_push_time 0 7200 6900 5 = 7200
    ∧ ¬ generate_random_push_time 0 7200 6900 5 < 7200 := by decide

/-- C2 (amended): when `max(windowStart + 1h, now + 5min)` lies strictly
before `windowEnd - 1h` — exactly the condition under which the source takes
the randomized branch rather than the fallback (its guard is
`earliest >= latest`, so even the nonempty singleton interval
`earliest = latest` falls back) — the generated time lies inside
`[windowStart, windowEnd)` for every admissible draw
`0 ≤ r ≤ latest - earliest`.  Whenever the fallback `now + 5..15min` fires,
the result can lie outside the window on either side. -/
theorem claim_C2_amended (daySunrise nextSunrise nowUtc r : Int)
    (h1 : daySunrise + 3600 < nextSunrise - 3600)
    (h2 : nowUtc + 300 < nextSunrise - 3600)
    (h3 : 0 ≤ r)
    (h4 : daySunrise + 3600 + r ≤ nextSunrise - 3600)
    (h5 : nowUtc + 300 + r ≤ nextSunrise - 3600) :
    daySunrise ≤ generate_random_push_time daySunrise nextSunrise nowUtc r
    ∧ generate_random_push_time daySunrise nextSunrise nowUtc r < nextSunrise := by
  simp only [generate_random_push_time]
  split_ifs <;> constructor <;> omega

/-- C2 (witness): the amended theorem at a twenty-eight-hour window with
`now` at the window start and draw `r = 0`. -/
theorem claim_C2_witness :
    (0 : Int) ≤ generate_random_push_time 0 100000 0 0
    ∧ generate_random_push_time 0 100000 0 0 < 100000 :=
  claim_C2_amended 0 100000 0 0 (by decide) (by decide) (by decide) (by decide)
    (by decide)

/-! ## C3: DuplicateError during Create is counted as errored, not skipped -/

/-- C3 (counterexample): a user whose existence probe returns false but whose
`Create` raises `DuplicateKeyError` (a concurrent initializer race) ends up
counted in `errored`, not in `skipped` as the claim states. -/
theorem claim_C3_counterexample :
    (initialize_daily_quotes [⟨false, .duplicateKeyError⟩]).skipped = 0
    ∧ (initialize_daily_quotes [⟨false, .duplicateKeyError⟩]).errored = 1 := by decide

/-- C3 (amended): `initialize_daily_quotes` counts a user as skipped only via
the existence probe; a `DuplicateKeyError` raised by `Create` is caught by
the generic per-user `except` handler and counted as errored, exactly like
any other failure, while processing continues over the whole user list (the
counts below range over every user). -/
theorem claim_C3_amended (users : List InitUser) :
    initialize_daily_quotes users =
      ⟨users.countP (fun u => !u.existsAlready && u.createResult == .ok),
       users.countP (fun u => u.existsAlready),
       users.countP (fun u => !u.existsAlready &&
         (u.createResult == .duplicateKeyError || u.createResult == .otherError))⟩ := by
  have key : ∀ (l : List InitUser) (c : CronInitCounts),
      l.foldl initStep c =
        ⟨c.initialized + l.countP (fun u => !u.existsAlready && u.createResult == .ok),
         c.skipped + l.countP (fun u => u.existsAlready),
         c.errored + l.countP (fun u => !u.existsAlready &&
           (u.createResult == .duplicateKeyError || u.createResult == .otherError))⟩ := by
    intro l
    induction l with
    | nil => intro c; simp
    | cons u t ih =>
      intro c
      rw [List.foldl_cons, ih]
      rcases u with ⟨e, cr⟩
      cases e <;> cases cr <;>
        simp [initStep, List.countP_cons] <;> omega
  rw [initialize_daily_quotes, key]
  simp

/-! ## C4: the sunrise-to-sunrise day-boundary decision rule -/

/-- C4: for every per-date sunrise function `S` and local-calendar-date
function, when the reference instant is at or after today's sunrise the
returned day is `[today's sunrise, tomorrow's sunrise)` keyed by the local
date; otherwise it is `[yesterday's sunrise, today's sunrise)` keyed by the
previous local date. -/
theorem claim_C4_decision_rule (S : Int → Int) (localDateOf : Int → Int)
    (nowUtc : Int) :
    (S (localDateOf nowUtc) ≤ nowUtc →
      get_sunrise_info_for_user S localDateOf nowUtc =
        ⟨localDateOf nowUtc, S (localDateOf nowUtc), S (localDateOf nowUtc + 1)⟩)
    ∧ (nowUtc < S (localDateOf nowUtc) →
      get_sunrise_info_for_user S localDateOf nowUtc =
        ⟨localDateOf nowUtc - 1, S (localDateOf nowUtc - 1), S (localDateOf nowUtc)⟩) := by
  constructor
  · intro h
    simp [get_sunrise_info_for_user, get_sunrise_times, h]
  · intro h
    have h' : ¬ S (localDateOf nowUtc) ≤ nowUtc := not_le.mpr h
    simp [get_sunrise_info_for_user, get_sunrise_times, h']

/-- C4 (witness): sunrise at 100 seconds per day index, local date 3,
reference instant 500 (after sunrise 300): the day is `[300, 400)` keyed 3. -/
theorem claim_C4_witness :
    get_sunrise_info_for_user (fun d => d * 100) (fun _ => 3) 500 = ⟨3, 300, 400⟩ :=
  (claim_C4_decision_rule (fun d => d * 100) (fun _ => 3) 500).1 (by norm_num)

/-! ## C9: trigger endpoint authentication -/

/-- C9 (counterexample): when the shared secret is unset, the endpoint
responds 500, not 401 as the claim states. -/
theorem claim_C9_counterexample :
    daily_quote_init_endpoint none "token" [] = .status500
    ∧ TriggerResponse.status500 ≠ TriggerResponse.status401 := by decide

/-- C9 (amended): the trigger endpoint responds 500 when the shared secret
is unset (None) or empty, 401 when a secret is configured and the header
does not match it, and 200 with the initializer's summary counts when the
header matches. -/
theorem claim_C9_amended (cronSecret : Option String) (header : String)
    (users : List InitUser) :
    ((cronSecret = none ∨ cronSecret = some "") →
      daily_quote_init_endpoint cronSecret header users = .status500)
    ∧ (∀ s, cronSecret = some s → s ≠ "" → header ≠ s →
      daily_quote_init_endpoint cronSecret header users = .status401)
    ∧ (∀ s, cronSecret = some s → s ≠ "" → header = s →
      daily_quote_init_endpoint cronSecret header users =
        .status200 (initialize_daily_quotes users)) := by
  refine ⟨?_, ?_, ?_⟩
  · intro h
    simp [daily_quote_init_endpoint, verify_cron_secret, h]
  · intro s hs hne hh
    subst hs
    simp [daily_quote_init_endpoint, verify_cron_secret, hne, hh]
  · intro s hs hne hh
    subst hs
    subst hh
    simp [daily_quote_init_endpoint, verify_cron_secret, hne]

/-- C9 (witness): a configured secret with a mismatching header yields 401. -/
theorem claim_C9_witness :
    daily_quote_init_endpoint (some "s3cret") "wrong" [] = .status401 :=
  (claim_C9_amended (some "s3cret") "wrong" []).2.1 "s3cret" rfl (by decide)
    (by decide)

/-! ## C6: today-status mapping -/

/-- C6 (counterexample): a record with `push_sent = true` and the non-null
(but empty) `quote_text = some ""` is mapped to unavailable, while the claim
requires status delivered for every non-null `quote_text`. -/
theorem claim_C6_counterexample :
    (get_today_quote [⟨1, "u", "d", 0, 86400, 100, true, some 5, some "",
        none, none, none, 0, 5⟩] "u" "d").status = .unavailable
    ∧ (QRec.quote_text ⟨1, "u", "d", 0, 86400, 100, true, some 5, some "",
        none, none, none, 0, 5⟩) ≠ none := by decide

/-- C6 (amended): `get_today_quote` returns pending when the record for the
user's current day is absent or has `push_sent = false`; unavailable when
`push_sent = true` and `quote_text` is null or empty; and delivered with the
stored quote when `push_sent = true` and `quote_text` is non-null and
non-empty. -/
theorem claim_C6_amended (store : List QRec) (uid dk : String) :
    (store.find? (fun r => r.user_id == uid && r.day_key == dk) = none →
      get_today_quote store uid dk = ⟨false, .pending, none⟩)
    ∧ (∀ r, store.find? (fun r => r.user_id == uid && r.day_key == dk) = some r →
      r.push_sent = false →
      get_today_quote store uid dk = ⟨false, .pending, none⟩)
    ∧ (∀ r, store.find? (fun r => r.user_id == uid && r.day_key == dk) = some r →
      r.push_sent = true → (r.quote_text = none ∨ r.quote_text = some "") →
      get_today_quote store uid dk = ⟨false, .unavailable, none⟩)
    ∧ (∀ r q, store.find? (fun r => r.user_id == uid && r.day_key == dk) = some r →
      r.push_sent = true → r.quote_text = some q → q ≠ "" →
      get_today_quote store uid dk = ⟨true, .delivered, some q⟩) := by
  refine ⟨?_, ?_, ?_, ?_⟩
  · intro h
    simp [get_today_quote, h]
  · intro r hr hp
    simp [get_today_quote, hr, hp]
  · intro r hr hp hq
    rcases hq with hq | hq <;> simp [get_today_quote, hr, hp, pyTruthyStr, hq]
  · intro r q hr hp hq hne
    simp [get_today_quote, hr, hp, pyTruthyStr, hq, hne]

/-- C6 (witness): the amended theorem's delivered case on a one-record
store. -/
theorem claim_C6_witness :
    get_today_quote [⟨1, "u", "2026-01-25", 0, 86400, 100, true, some 5,
        some "Wise words.", none, none, none, 0, 5⟩] "u" "2026-01-25"
      = ⟨true, .delivered, some "Wise words."⟩ :=
  (claim_C6_amended [⟨1, "u", "2026-01-25", 0, 86400, 100, true, some 5,
      some "Wise words.", none, none, none, 0, 5⟩] "u" "2026-01-25").2.2.2
    ⟨1, "u", "2026-01-25", 0, 86400, 100, true, some 5, some "Wise words.",
      none, none, none, 0, 5⟩ "Wise words." (by decide) rfl rfl (by decide)

/-! ## C7: history filter, order and clamped page size -/

/-- C7: every record returned by `get_quote_history` belongs to the queried
user, has `push_sent = true` and a non-null `quote_text`; the page is
ordered by `day_key` descending; and its size is clamped to
`min limit MAX_HISTORY_LIMIT`. -/
theorem claim_C7_history (store : List QRec) (uid : String) (skip limit : Nat) :
    (∀ r ∈ (get_quote_history store uid skip limit).1,
      r.user_id = uid ∧ r.push_sent = true ∧ r.quote_text ≠ none)
    ∧ List.Pairwise (fun a b => b.day_key ≤ a.day_key)
        (get_quote_history store uid skip limit).1
    ∧ (get_quote_history store uid skip limit).1.length ≤ min limit MAX_HISTORY_LIMIT := by
  have hsub : (get_quote_history store uid skip limit).1.Sublist
      ((store.filter (historyPred uid)).mergeSort dayKeyDesc) := by
    simp only [get_quote_history]
    exact (List.take_sublist _ _).trans (List.drop_sublist _ _)
  refine ⟨?_, ?_, ?_⟩
  · intro r hr
    have hmem : r ∈ (store.filter (historyPred uid)).mergeSort dayKeyDesc :=
      hsub.subset hr
    have hmem' : r ∈ store.filter (historyPred uid) := List.mem_mergeSort.mp hmem
    have hp : historyPred uid r = true := List.of_mem_filter hmem'
    simp only [historyPred, Bool.and_eq_true, beq_iff_eq, Bool.not_eq_true',
      beq_eq_false_iff_ne] at hp
    exact ⟨hp.1.1, hp.1.2, hp.2⟩
  · have hs : List.Pairwise (fun a b => dayKeyDesc a b = true)
        ((store.filter (historyPred uid)).mergeSort dayKeyDesc) :=
      List.sorted_mergeSort
        (fun a b c hab hbc => by
          simp only [dayKeyDesc, decide_eq_true_eq] at *
          exact le_trans hbc hab)
        (fun a b => by
          simp only [dayKeyDesc]
          rcases le_total b.day_key a.day_key with h | h <;> simp [h])
        (store.filter (historyPred uid))
    have hp := List.Pairwise.sublist hsub hs
    exact hp.imp (fun h => by simpa [dayKeyDesc] using h)
  · simp only [get_quote_history]
    rw [List.length_take]
    exact min_le_left _ _

/-! ## Delivery job (app/quotes/service.py, send_pending_pushes)

External collaborators are injected as functions: `extract` is the quote
extractor outcome per record (`pick_random_quote`, including the case where
it raises and the generic per-record `except` handler fires), `tokensOf`
the device-token registry, `pushSucceeds` the push gateway outcome. -/

structure QuoteData where
  quote_text : String
  post_id : Option String
  author_user_id : Option String
  author_username : Option String

inductive ExtractOutcome where
  | found (q : QuoteData)
  | noUsablePosts
  | raisedError

def isNoContentOutcome : ExtractOutcome → Bool
  | .noUsablePosts => true
  | _ => false

def isRaisedOutcome : ExtractOutcome → Bool
  | .raisedError => true
  | _ => false

structure CronPushCounts where
  processed : Nat
  sent : Nat
  no_quote : Nat
  no_tokens : Nat
  errored : Nat
deriving DecidableEq

/-- One iteration of the record loop in `send_pending_pushes`
(service.py lines 267-315). -/
def processPushRecord (extract : Nat → ExtractOutcome)
    (tokensOf : String → List String) (pushSucceeds : Nat → Bool) (now : Int)
    (st : List QRec × CronPushCounts) (rec : QRec) : List QRec × CronPushCounts :=
  let store := st.1
  let c0 := st.2
  let c := { c0 with processed := c0.processed + 1 }
  match extract rec.rid with
  | .raisedError => (store, { c with errored := c.errored + 1 })
  | .noUsablePosts =>
    ((mark_quote_sent store rec.rid now none none none none).1,
     { c with no_quote := c.no_quote + 1 })
  | .found q =>
    let toks := tokensOf rec.user_id
    let store' := (mark_quote_sent store rec.rid now (some q.quote_text) q.post_id
      q.author_user_id q.author_username).1
    if toks.isEmpty then (store', { c with no_tokens := c.no_tokens + 1 })
    else if pushSucceeds rec.rid then (store', { c with sent := c.sent + 1 })
    else (store', c)

/-- `send_pending_pushes` (service.py lines 238-328). -/
def send_pending_pushes (extract : Nat → ExtractOutcome)
    (tokensOf : String → List String) (pushSucceeds : Nat → Bool)
    (now : Int) (store : List QRec) : List QRec × CronPushCounts :=
  (get_pending_pushes store now).foldl
    (processPushRecord extract tokensOf pushSucceeds now) (store, ⟨0, 0, 0, 0, 0⟩)

/-- The identifying fields `(rid, user_id, day_key)` of a record, which no
`$set` of the delivery job ever modifies. -/
def keyTriple (r : QRec) : Nat × String × String := (r.rid, r.user_id, r.day_key)

@[simp] theorem applySentUpdate_rid (now : Int) (qt sp sa su : Option String)
    (r : QRec) : (applySentUpdate now qt sp sa su r).rid = r.rid := rfl

@[simp] theorem applySentUpdate_user_id (now : Int) (qt sp sa su : Option String)
    (r : QRec) : (applySentUpdate now qt sp sa su r).user_id = r.user_id := rfl

@[simp] theorem applySentUpdate_day_key (now : Int) (qt sp sa su : Option String)
    (r : QRec) : (applySentUpdate now qt sp sa su r).day_key = r.day_key := rfl

@[simp] theorem applySentUpdate_push_sent (now : Int) (qt sp sa su : Option String)
    (r : QRec) : (applySentUpdate now qt sp sa su r).push_sent = true := rfl

@[simp] theorem applySentUpdate_quote_text (now : Int) (qt sp sa su : Option String)
    (r : QRec) : (applySentUpdate now qt sp sa su r).quote_text = qt := rfl

theorem mark_find_other (store : List QRec) (rid k : Nat) (now : Int)
    (qt sp sa su : Option String) (hk : k ≠ rid) :
    (mark_quote_sent store rid now qt sp sa su).1.find? (fun x => x.rid == k)
      = store.find? (fun x => x.rid == k) := by
  induction store with
  | nil => rfl
  | cons r rest ih =>
    by_cases h : r.rid = rid
    · simp only [mark_quote_sent, show (r.rid == rid) = true by simp [h], if_true]
      rw [List.find?_cons_of_neg _ (by simp [h, Ne.symm hk]),
        List.find?_cons_of_neg _ (by simp [h, Ne.symm hk])]
    · simp only [mark_quote_sent, show (r.rid == rid) = false by simp [h],
        Bool.false_eq_true, if_false]
      by_cases h2 : r.rid = k
      · rw [List.find?_cons_of_pos _ (by simp [h2]),
          List.find?_cons_of_pos _ (by simp [h2])]
      · rw [List.find?_cons_of_neg _ (by simp [h2]),
          List.find?_cons_of_neg _ (by simp [h2])]
        exact ih

theorem mark_find_self (store : List QRec) (rid : Nat) (now : Int)
    (qt sp sa su : Option String) :
    (mark_quote_sent store rid now qt sp sa su).1.find? (fun x => x.rid == rid)
      = (store.find? (fun x => x.rid == rid)).map (applySentUpdate now qt sp sa su) := by
  induction store with
  | nil => rfl
  | cons r rest ih =>
    by_cases h : r.rid = rid
    · simp only [mark_quote_sent, show (r.rid == rid) = true by simp [h], if_true]
      rw [List.find?_cons_of_pos _ (by simp [h]),
        List.find?_cons_of_pos _ (by simp [h])]
      rfl
    · simp only [mark_quote_sent, show (r.rid == rid) = false by simp [h],
        Bool.false_eq_true, if_false]
      rw [List.find?_cons_of_neg _ (by simp [h]),
        List.find?_cons_of_neg _ (by simp [h])]
      exact ih

theorem mark_map_keyTriple (store : List QRec) (rid : Nat) (now : Int)
    (qt sp sa su : Option String) :
    (mark_quote_sent store rid now qt sp sa su).1.map keyTriple
      = store.map keyTriple := by
  induction store with
  | nil => rfl
  | cons r rest ih =>
    by_cases h : r.rid = rid
    · simp only [mark_quote_sent, show (r.rid == rid) = true by simp [h], if_true]
      simp [keyTriple]
    · simp only [mark_quote_sent, show (r.rid == rid) = false by simp [h],
        Bool.false_eq_true, if_false]
      simp [ih]

theorem push_fold_counts (extract : Nat → ExtractOutcome)
    (tokensOf : String → List String) (pushSucceeds : Nat → Bool) (now : Int) :
    ∀ (l : List QRec) (store0 : List QRec) (c0 : CronPushCounts),
      (l.foldl (processPushRecord extract tokensOf pushSucceeds now) (store0, c0)).2
        = ⟨c0.processed + l.length,
           c0.sent + l.countP (fun p => !isNoContentOutcome (extract p.rid)
             && !isRaisedOutcome (extract p.rid)
             && !(tokensOf p.user_id).isEmpty && pushSucceeds p.rid),
           c0.no_quote + l.countP (fun p => isNoContentOutcome (extract p.rid)),
           c0.no_tokens + l.countP (fun p => !isNoContentOutcome (extract p.rid)
             && !isRaisedOutcome (extract p.rid) && (tokensOf p.user_id).isEmpty),
           c0.errored + l.countP (fun p => isRaisedOutcome (extract p.rid))⟩ := by
  intro l
  induction l with
  | nil => intro store0 c0; simp
  | cons p t ih =>
    intro store0 c0
    rw [List.foldl_cons]
    cases hE : extract p.rid with
    | raisedError =>
      simp only [processPushRecord, hE]
      rw [ih]
      simp [List.countP_cons, hE, isNoContentOutcome, isRaisedOutcome]
      omega
    | noUsablePosts =>
      simp only [processPushRecord, hE]
      rw [ih]
      simp [List.countP_cons, hE, isNoContentOutcome, isRaisedOutcome]
      omega
    | found q =>
      simp only [processPushRecord, hE]
      by_cases hT : (tokensOf p.user_id).isEmpty
      · simp only [hT, if_true]
        rw [ih]
        simp [List.countP_cons, hE, isNoContentOutcome, isRaisedOutcome, hT]
        omega
      · by_cases hP : pushSucceeds p.rid
        · simp only [hT, Bool.false_eq_true, if_false, hP, if_true]
          rw [ih]
          simp [List.countP_cons, hE, isNoContentOutcome, isRaisedOutcome, hT, hP]
          omega
        · simp only [hT, Bool.false_eq_true, if_false, hP]
          rw [ih]
          simp [List.countP_cons, hE, isNoContentOutcome, isRaisedOutcome, hT, hP]
          omega

theorem push_fold_find_other (extract : Nat → ExtractOutcome)
    (tokensOf : String → List String) (pushSucceeds : Nat → Bool) (now : Int)
    (k : Nat) :
    ∀ (l : List QRec) (store0 : List QRec) (c0 : CronPushCounts),
      (∀ p ∈ l, p.rid ≠ k) →
      (l.foldl (processPushRecord extract tokensOf pushSucceeds now)
          (store0, c0)).1.find? (fun x => x.rid == k)
        = store0.find? (fun x => x.rid == k) := by
  intro l
  induction l with
  | nil => intro store0 c0 _; rfl
  | cons p t ih =>
    intro store0 c0 hl
    have hp : p.rid ≠ k := hl p (by simp)
    have hk : k ≠ p.rid := Ne.symm hp
    rw [List.foldl_cons]
    cases hE : extract p.rid with
    | raisedError =>
      simp only [processPushRecord, hE]
      rw [ih _ _ (fun x hx => hl x (by simp [hx]))]
    | noUsablePosts =>
      simp only [processPushRecord, hE]
      rw [ih _ _ (fun x hx => hl x (by simp [hx]))]
      exact mark_find_other _ _ _ _ _ _ _ _ hk
    | found q =>
      simp only [processPushRecord, hE]
      by_cases hT : (tokensOf p.user_id).isEmpty
      · simp only [hT, if_true]
        rw [ih _ _ (fun x hx => hl x (by simp [hx]))]
        exact mark_find_other _ _ _ _ _ _ _ _ hk
      · by_cases hP : pushSucceeds p.rid
        · simp only [hT, Bool.false_eq_true, if_false, hP, if_true]
          rw [ih _ _ (fun x hx => hl x (by simp [hx]))]
          exact mark_find_other _ _ _ _ _ _ _ _ hk
        · simp only [hT, Bool.false_eq_true, if_false, hP]
          rw [ih _ _ (fun x hx => hl x (by simp [hx]))]
          exact mark_find_other _ _ _ _ _ _ _ _ hk

theorem push_fold_map_keyTriple (extract : Nat → ExtractOutcome)
    (tokensOf : String → List String) (pushSucceeds : Nat → Bool) (now : Int) :
    ∀ (l : List QRec) (store0 : List QRec) (c0 : CronPushCounts),
      (l.foldl (processPushRecord extract tokensOf pushSucceeds now)
          (store0, c0)).1.map keyTriple
        = store0.map keyTriple := by
  intro l
  induction l with
  | nil => intro store0 c0; rfl
  | cons p t ih =>
    intro store0 c0
    rw [List.foldl_cons]
    cases hE : extract p.rid with
    | raisedError =>
      simp only [processPushRecord, hE]
      rw [ih]
    | noUsablePosts =>
      simp only [processPushRecord, hE]
      rw [ih, mark_map_keyTriple]
    | found q =>
      simp only [processPushRecord, hE]
      by_cases hT : (tokensOf p.user_id).isEmpty
      · simp only [hT, if_true]
        rw [ih, mark_map_keyTriple]
      · by_cases hP : pushSucceeds p.rid
        · simp only [hT, Bool.false_eq_true, if_false, hP, if_true]
          rw [ih, mark_map_keyTriple]
        · simp only [hT, Bool.false_eq_true, if_false, hP]
          rw [ih, mark_map_keyTriple]

theorem find_rid_of_nodup (store : List QRec) (r : QRec)
    (hnd : (store.map (fun x => x.rid)).Nodup) (hr : r ∈ store) :
    store.find? (fun x => x.rid == r.rid) = some r := by
  induction store with
  | nil => simp at hr
  | cons x xs ih =>
    rw [List.map_cons, List.nodup_cons] at hnd
    rcases List.mem_cons.mp hr with h | h
    · subst h
      rw [List.find?_cons_of_pos _ (by simp)]
    · have hx : x.rid ≠ r.rid := by
        intro he
        exact hnd.1 (he ▸ List.mem_map_of_mem (fun y => y.rid) h)
      rw [List.find?_cons_of_neg _ (by simp [hx])]
      exact ih hnd.2 h

theorem eq_of_mem_rid (store : List QRec) (x y : QRec)
    (hnd : (store.map (fun z => z.rid)).Nodup)
    (hx : x ∈ store) (hy : y ∈ store) (he : x.rid = y.rid) : x = y := by
  induction store with
  | nil => simp at hx
  | cons a t ih =>
    rw [List.map_cons, List.nodup_cons] at hnd
    rcases List.mem_cons.mp hx with h1 | h1 <;> rcases List.mem_cons.mp hy with h2 | h2
    · rw [h1, h2]
    · exfalso
      subst h1
      exact hnd.1 (he ▸ List.mem_map_of_mem (fun z => z.rid) h2)
    · exfalso
      subst h2
      exact hnd.1 (he ▸ List.mem_map_of_mem (fun z => z.rid) h1)
    · exact ih hnd.2 h1 h2

theorem find_ud_keyTriple (uid dk : String) :
    ∀ (s s' : List QRec), s.map keyTriple = s'.map keyTriple →
      (s.find? (fun x => x.user_id == uid && x.day_key == dk)).map keyTriple
        = (s'.find? (fun x => x.user_id == uid && x.day_key == dk)).map keyTriple := by
  intro s
  induction s with
  | nil =>
    intro s' h
    cases s' with
    | nil => rfl
    | cons y ys => simp at h
  | cons x xs ih =>
    intro s' h
    cases s' with
    | nil => simp at h
    | cons y ys =>
      simp only [List.map_cons, List.cons.injEq] at h
      obtain ⟨hxy, hrest⟩ := h
      have hu : x.user_id = y.user_id := congrArg (fun t => t.2.1) hxy
      have hd : x.day_key = y.day_key := congrArg (fun t => t.2.2) hxy
      have hp' : (y.user_id == uid && y.day_key == dk)
          = (x.user_id == uid && x.day_key == dk) := by rw [hu, hd]
      rw [List.find?_cons, List.find?_cons, hp']
      by_cases hp : (x.user_id == uid && x.day_key == dk) = true
      · rw [hp]
        simp [hxy]
      · rw [Bool.not_eq_true] at hp
        rw [hp]
        exact ih ys hrest

/-- C8: when the quote extractor finds no usable content for a due record,
`send_pending_pushes` marks that record delivered with `quote_text = null`
and no source reference, counts the outcome in `no_quote` (the `errored`
counter only counts records whose processing raised), and a subsequent
`get_today_quote` for that user and day returns unavailable. -/
theorem claim_C8_no_content (extract : Nat → ExtractOutcome)
    (tokensOf : String → List String) (pushSucceeds : Nat → Bool)
    (now : Int) (store : List QRec) (r : QRec)
    (hnd : (store.map (fun x => x.rid)).Nodup)
    (hr : r ∈ store)
    (hpend : r.push_sent = false)
    (hdue : r.scheduled_push_time_utc ≤ now)
    (hsize : (store.filter (pendingPred now)).length ≤ 1000)
    (hud : ∀ x ∈ store, x.user_id = r.user_id → x.day_key = r.day_key → x.rid = r.rid)
    (hext : extract r.rid = .noUsablePosts) :
    (send_pending_pushes extract tokensOf pushSucceeds now store).1.find?
        (fun x => x.rid == r.rid)
      = some (applySentUpdate now none none none none r)
    ∧ (send_pending_pushes extract tokensOf pushSucceeds now store).2.no_quote
      = (get_pending_pushes store now).countP
          (fun p => isNoContentOutcome (extract p.rid))
    ∧ (send_pending_pushes extract tokensOf pushSucceeds now store).2.errored
      = (get_pending_pushes store now).countP
          (fun p => isRaisedOutcome (extract p.rid))
    ∧ 1 ≤ (send_pending_pushes extract tokensOf pushSucceeds now store).2.no_quote
    ∧ get_today_quote (send_pending_pushes extract tokensOf pushSucceeds now store).1
        r.user_id r.day_key = ⟨false, .unavailable, none⟩ := by
  have hpending : get_pending_pushes store now = store.filter (pendingPred now) := by
    unfold get_pending_pushes
    exact List.take_of_length_le hsize
  have hrp : r ∈ get_pending_pushes store now := by
    rw [hpending]
    exact List.mem_filter.mpr ⟨hr, by simp [pendingPred, hpend, hdue]⟩
  have hndp : ((get_pending_pushes store now).map (fun x => x.rid)).Nodup := by
    refine List.Nodup.sublist (List.Sublist.map _ ?_) hnd
    rw [hpending]
    exact List.filter_sublist _
  obtain ⟨l1, l2, hsplit⟩ := List.append_of_mem hrp
  have hpw : List.Pairwise (fun a b => a ≠ b)
      ((l1.map (fun x => x.rid)) ++ (r.rid :: l2.map (fun x => x.rid))) := by
    have h := hndp
    rw [hsplit, List.map_append, List.map_cons] at h
    exact h
  have h1 : ∀ p ∈ l1, p.rid ≠ r.rid := by
    intro p hp
    exact (List.pairwise_append.mp hpw).2.2 p.rid (List.mem_map_of_mem _ hp) r.rid
      (by simp)
  have h2 : ∀ p ∈ l2, p.rid ≠ r.rid := by
    intro p hp
    have h := (List.pairwise_cons.mp (List.pairwise_append.mp hpw).2.1).1 p.rid
      (List.mem_map_of_mem _ hp)
    exact Ne.symm h
  have hfind0 : store.find? (fun x => x.rid == r.rid) = some r :=
    find_rid_of_nodup store r hnd hr
  have hc1 : (send_pending_pushes extract tokensOf pushSucceeds now store).1.find?
      (fun x => x.rid == r.rid) = some (applySentUpdate now none none none none r) := by
    unfold send_pending_pushes
    rw [hsplit, List.foldl_append, List.foldl_cons]
    set st1 := l1.foldl (processPushRecord extract tokensOf pushSucceeds now)
      (store, (⟨0, 0, 0, 0, 0⟩ : CronPushCounts)) with hst1
    have hfind1 : st1.1.find? (fun x => x.rid == r.rid) = some r := by
      rw [hst1, push_fold_find_other extract tokensOf pushSucceeds now r.rid l1 store
        ⟨0, 0, 0, 0, 0⟩ h1]
      exact hfind0
    simp only [processPushRecord, hext]
    rw [push_fold_find_other extract tokensOf pushSucceeds now r.rid l2 _ _ h2,
      mark_find_self, hfind1]
    rfl
  have hcounts := push_fold_counts extract tokensOf pushSucceeds now
    (get_pending_pushes store now) store ⟨0, 0, 0, 0, 0⟩
  have hc2 : (send_pending_pushes extract tokensOf pushSucceeds now store).2.no_quote
      = (get_pending_pushes store now).countP
          (fun p => isNoContentOutcome (extract p.rid)) := by
    unfold send_pending_pushes
    rw [hcounts]
    simp
  have hc3 : (send_pending_pushes extract tokensOf pushSucceeds now store).2.errored
      = (get_pending_pushes store now).countP
          (fun p => isRaisedOutcome (extract p.rid)) := by
    unfold send_pending_pushes
    rw [hcounts]
    simp
  have hc4 : 1 ≤ (send_pending_pushes extract tokensOf pushSucceeds now store).2.no_quote := by
    rw [hc2]
    have : 0 < (get_pending_pushes store now).countP
        (fun p => isNoContentOutcome (extract p.rid)) :=
      List.countP_pos_iff.mpr ⟨r, hrp, by simp [hext, isNoContentOutcome]⟩
    omega
  have hkey : (send_pending_pushes extract tokensOf pushSucceeds now store).1.map keyTriple
      = store.map keyTriple := by
    unfold send_pending_pushes
    exact push_fold_map_keyTriple extract tokensOf pushSucceeds now _ store _
  have hfs : store.find? (fun x => x.user_id == r.user_id && x.day_key == r.day_key)
      = some r := by
    have hsome : (store.find? (fun x => x.user_id == r.user_id
        && x.day_key == r.day_key)).isSome := by
      rw [List.find?_isSome]
      exact ⟨r, hr, by simp⟩
    obtain ⟨x, hx⟩ := Option.isSome_iff_exists.mp hsome
    have hpx := List.find?_some hx
    have hmx := List.mem_of_find?_eq_some hx
    simp only [Bool.and_eq_true, beq_iff_eq] at hpx
    have hxr : x = r := eq_of_mem_rid store x r hnd hmx hr (hud x hmx hpx.1 hpx.2)
    rw [hx, hxr]
  have hcorr := find_ud_keyTriple r.user_id r.day_key store
    (send_pending_pushes extract tokensOf pushSucceeds now store).1 hkey.symm
  rw [hfs] at hcorr
  have hc5 : get_today_quote
      (send_pending_pushes extract tokensOf pushSucceeds now store).1
      r.user_id r.day_key = ⟨false, .unavailable, none⟩ := by
    cases hopt : (send_pending_pushes extract tokensOf pushSucceeds now store).1.find?
        (fun x => x.user_id == r.user_id && x.day_key == r.day_key) with
    | none =>
      rw [hopt] at hcorr
      simp at hcorr
    | some y =>
      rw [hopt] at hcorr
      have hyk : keyTriple r = keyTriple y := by
        simpa using hcorr
      have hyrid : y.rid = r.rid := (congrArg (fun t => t.1) hyk).symm
      have hymem : y ∈ (send_pending_pushes extract tokensOf pushSucceeds now store).1 :=
        List.mem_of_find?_eq_some hopt
      have hamem : applySentUpdate now none none none none r
          ∈ (send_pending_pushes extract tokensOf pushSucceeds now store).1 :=
        List.mem_of_find?_eq_some hc1
      have hnd' : (((send_pending_pushes extract tokensOf pushSucceeds now store).1).map
          (fun z => z.rid)).Nodup := by
        have h3 := congrArg (List.map (fun t : Nat × String × String => t.1)) hkey
        rw [List.map_map, List.map_map] at h3
        have h4 : ((send_pending_pushes extract tokensOf pushSucceeds now store).1).map
            (fun z => z.rid) = store.map (fun z => z.rid) := by
          simpa [keyTriple, Function.comp] using h3
        rw [h4]
        exact hnd
      have hya : y = applySentUpdate now none none none none r :=
        eq_of_mem_rid _ y _ hnd' hymem hamem (by rw [hyrid]; simp)
      simp only [get_today_quote, hopt, hya]
      simp [pyTruthyStr]
  exact ⟨hc1, hc2, hc3, hc4, hc5⟩

/-- C8 (witness): a single due record, an extractor that never finds
content, no device tokens. -/
theorem claim_C8_witness :
    (send_pending_pushes (fun _ => ExtractOutcome.noUsablePosts) (fun _ => [])
        (fun _ => false) 10
        [⟨1, "u", "2026-01-25", 0, 86400, 4, false, none, none, none, none, none, 0, 0⟩]).1.find?
        (fun x => x.rid == 1)
      = some (applySentUpdate 10 none none none none
          ⟨1, "u", "2026-01-25", 0, 86400, 4, false, none, none, none, none, none, 0, 0⟩)
    ∧ get_today_quote
        (send_pending_pushes (fun _ => ExtractOutcome.noUsablePosts) (fun _ => [])
          (fun _ => false) 10
          [⟨1, "u", "2026-01-25", 0, 86400, 4, false, none, none, none, none, none, 0, 0⟩]).1
        "u" "2026-01-25" = ⟨false, .unavailable, none⟩ := by
  have h := claim_C8_no_content (fun _ => ExtractOutcome.noUsablePosts) (fun _ => [])
    (fun _ => false) 10
    [⟨1, "u", "2026-01-25", 0, 86400, 4, false, none, none, none, none, none, 0, 0⟩]
    ⟨1, "u", "2026-01-25", 0, 86400, 4, false, none, none, none, none, none, 0, 0⟩
    (by decide) (by simp) rfl (by decide) (by decide)
    (by intro x hx _ _; simp at hx; rw [hx]) rfl
  exact ⟨h.1, h.2.2.2.2⟩

/-! ## Quote extraction (app/quotes/extraction.py)

Python strings are embedded as `List Char`.  `\s` of `re` is modelled for
the ASCII whitespace class Python uses on these inputs. -/

def isPySpace (c : Char) : Bool :=
  c == ' ' || c == '\t' || c == '\n' || c == '\r' || c == '\x0b' || c == '\x0c'

def isEndPunct (c : Char) : Bool := c == '.' || c == '!' || c == '?'

/-- `str.strip()`: drop whitespace from both ends. -/
def pyStrip (s : List Char) : List Char :=
  ((s.dropWhile isPySpace).reverse.dropWhile isPySpace).reverse

/-- `str.replace(pat, repl)`, stepwise: one scan position per call.  The
`fuel` argument only makes the recursion structural (each step consumes at
least one character, so `fuel = length` at the top level suffices and the
zero-fuel branch is unreachable). -/
def replaceAllF (pat repl : List Char) : Nat → List Char → List Char
  | _, [] => []
  | 0, l => l
  | fuel + 1, c :: rest =>
    if !pat.isEmpty && pat.isPrefixOf (c :: rest) then
      repl ++ replaceAllF pat repl fuel ((c :: rest).drop pat.length)
    else
      c :: replaceAllF pat repl fuel rest

/-- `str.replace(pat, repl)`: replace every occurrence, leftmost first,
non-overlapping. -/
def replaceAll (pat repl s : List Char) : List Char :=
  replaceAllF pat repl s.length s

/-- The loop of `re.sub(r'\s+', ' ', text)` with structural `fuel` (same
device as `replaceAllF`). -/
def collapseWsF : Nat → List Char → List Char
  | _, [] => []
  | 0, l => l
  | fuel + 1, c :: rest =>
    if isPySpace c then ' ' :: collapseWsF fuel (rest.dropWhile isPySpace)
    else c :: collapseWsF fuel rest

/-- `re.sub(r'\s+', ' ', text)`: collapse each maximal whitespace run into a
single space. -/
def collapseWs (s : List Char) : List Char := collapseWsF s.length s

/-- The `<DOT>` placeholder the splitter uses to protect abbreviations. -/
def dotTok : List Char := ['<', 'D', 'O', 'T', '>']

/-- The protected abbreviation list (extraction.py lines 36-40). -/
def abbreviations : List (List Char) :=
  ["Mr.", "Mrs.", "Ms.", "Dr.", "Prof.", "Sr.", "Jr.",
   "vs.", "etc.", "i.e.", "e.g.", "St.", "Mt.", "Inc.",
   "Ltd.", "Corp.", "No.", "Vol.", "Rev.", "Ed."].map String.toList

/-- `abbr.replace('.', '<DOT>')`. -/
def protectPat (p : List Char) : List Char := replaceAll ['.'] dotTok p

/-- The protection loop of `split_into_sentences` (extraction.py
lines 41-42). -/
def protectText (s : List Char) : List Char :=
  abbreviations.foldl (fun acc abbr => replaceAll abbr (protectPat abbr) acc) s

/-- `part.replace('<DOT>', '.')`. -/
def restoreDots (s : List Char) : List Char := replaceAll dotTok ['.'] s

def lastIsEndPunct : List Char → Bool
  | [] => false
  | p :: _ => isEndPunct p

/-- The scan of `re.split(r'(?<=[.!?])\s+', ...)` with structural `fuel`
(same device as `replaceAllF`).  `acc` holds the current part reversed, so
its head is the character preceding the scan position. -/
def splitGapsF : Nat → List Char → List Char → List (List Char)
  | _, acc, [] => [acc.reverse]
  | 0, acc, l => [acc.reverse ++ l]
  | fuel + 1, acc, c :: rest =>
    if lastIsEndPunct acc && isPySpace c then
      acc.reverse :: splitGapsF fuel [] (rest.dropWhile isPySpace)
    else
      splitGapsF fuel (c :: acc) rest

/-- `re.split(r'(?<=[.!?])\s+', ...)`: leftmost-greedy split at whitespace
runs preceded by sentence-ending punctuation. -/
def splitGaps (s : List Char) : List (List Char) := splitGapsF s.length [] s

/-- `split_into_sentences` (extraction.py lines 19-56). -/
def split_into_sentences (text : List Char) : List (List Char) :=
  if text.isEmpty then []
  else
    ((splitGaps (protectText text)).map
      (fun part => pyStrip (restoreDots part))).filter (fun s => !s.isEmpty)

/-- `MAX_QUOTE_LENGTH` (constants.py). -/
def MAX_QUOTE_LENGTH : Nat := 200

/-- `MIN_QUOTE_LENGTH` (constants.py). -/
def MIN_QUOTE_LENGTH : Nat := 10

/-- `str.rfind(c)`: index of the last occurrence, `-1` if absent. -/
def rfind (c : Char) : List Char → Int
  | [] => -1
  | a :: rest =>
    let r := rfind c rest
    if 0 ≤ r then r + 1
    else if a == c then 0 else -1

/-- `str.rstrip('.,;:')`. -/
def rstripChars (chars : List Char) (s : List Char) : List Char :=
  (s.reverse.dropWhile (fun c => chars.contains c)).reverse

/-- `truncate_at_word_boundary` (extraction.py lines 59-82). -/
def truncate_at_word_boundary (text : List Char) (maxLength : Nat) :
    Option (List Char) :=
  if text.length ≤ maxLength then some text
  else
    let truncated := text.take (maxLength - 3)
    let lastSpace := rfind ' ' truncated
    if (MIN_QUOTE_LENGTH : Int) < lastSpace then
      some (rstripChars ['.', ',', ';', ':'] (truncated.take lastSpace.toNat)
        ++ ['.', '.', '.'])
    else none

/-- The sentence-accumulation loop of `extract_quote_from_text`
(extraction.py lines 122-137), including the trailing minimum-length
check. -/
def buildFromSentences : List Char → List (List Char) → Option (List Char)
  | result, [] => if MIN_QUOTE_LENGTH ≤ result.length then some result else none
  | result, s :: rest =>
    let candidate := if result.isEmpty then s else pyStrip (result ++ ' ' :: s)
    if candidate.length ≤ MAX_QUOTE_LENGTH then buildFromSentences candidate rest
    else if result.isEmpty then truncate_at_word_boundary s MAX_QUOTE_LENGTH
    else if MIN_QUOTE_LENGTH ≤ result.length then some result else none

/-- The whitespace normalization of `extract_quote_from_text`
(extraction.py lines 104-105): `strip` then `re.sub(r'\s+', ' ', ...)`. -/
def normalizeWs (text : List Char) : List Char := collapseWs (pyStrip text)

/-- `extract_quote_from_text` (extraction.py lines 85-138). -/
def extract_quote_from_text (text : List Char) : Option (List Char) :=
  if text.isEmpty then none
  else
    let t := normalizeWs text
    if t.length < MIN_QUOTE_LENGTH then none
    else if t.length ≤ MAX_QUOTE_LENGTH then some t
    else
      let sentences := split_into_sentences t
      if sentences.isEmpty then truncate_at_word_boundary t MAX_QUOTE_LENGTH
      else buildFromSentences [] sentences

/-- `" ".join(sentences)`. -/
def joinSpace : List (List Char) → List Char
  | [] => []
  | [s] => s
  | s :: t :: rest => s ++ ' ' :: joinSpace (t :: rest)

def noTwoSpaces : List Char → Bool
  | a :: b :: rest => (!(isPySpace a && isPySpace b)) && noTwoSpaces (b :: rest)
  | _ => true

/-- The shape `extract_quote_from_text`'s normalization produces: every
whitespace character is a plain space, no leading or trailing whitespace,
and no two adjacent whitespace characters. -/
def NormalizedText (t : List Char) : Bool :=
  t.all (fun c => !isPySpace c || c == ' ')
  && (match t.head? with | some c => !isPySpace c | none => true)
  && (match t.getLast? with | some c => !isPySpace c | none => true)
  && noTwoSpaces t

/-! ## C5: extraction length bounds -/

set_option maxRecDepth 40000 in
/-- C5: on the 212-character input `"ab,,,,,,,,, " ++ 200 * "x"` (no
sentence-ending punctuation, single space at index 11), the extraction
pipeline truncates at the word boundary (index 11, which passes the
`last_space > MIN_QUOTE_LENGTH` guard), then `rstrip('.,;:')` removes the
nine commas, leaving `"ab..."` — a returned quote of length 5, below
`MIN_QUOTE_LENGTH = 10`, contradicting the claimed lower bound. -/
theorem claim_C5_min_length_violation :
    extract_quote_from_text ("ab,,,,,,,,, ".toList ++ List.replicate 200 'x')
      = some "ab...".toList
    ∧ ("ab,,,,,,,,, ".toList ++ List.replicate 200 'x').length = 212
    ∧ "ab...".toList.length = 5
    ∧ "ab...".toList.length < MIN_QUOTE_LENGTH := by
  exact ⟨by decide, by decide, by decide, by decide⟩

/-! ## Recursion equations for the fuel-based string primitives -/

theorem replaceAllF_nil (pat repl : List Char) (fuel : Nat) :
    replaceAllF pat repl fuel [] = [] := by
  cases fuel <;> rfl

theorem pat_length_pos_of_match (pat : List Char) (c : Char) (rest : List Char)
    (h : (!pat.isEmpty && pat.isPrefixOf (c :: rest)) = true) : 0 < pat.length := by
  cases pat with
  | nil => simp at h
  | cons a as => simp

theorem replaceAllF_fuel (pat repl : List Char) :
    ∀ (f₁ : Nat) (l : List Char) (f₂ : Nat), l.length ≤ f₁ → l.length ≤ f₂ →
      replaceAllF pat repl f₁ l = replaceAllF pat repl f₂ l := by
  intro f₁
  induction f₁ with
  | zero =>
    intro l f₂ h1 _
    have hl : l = [] := List.eq_nil_of_length_eq_zero (Nat.le_zero.mp h1)
    subst hl
    rw [replaceAllF_nil, replaceAllF_nil]
  | succ f ih =>
    intro l f₂ h1 h2
    cases l with
    | nil => rw [replaceAllF_nil, replaceAllF_nil]
    | cons c rest =>
      cases f₂ with
      | zero => simp at h2
      | succ f₂' =>
        by_cases h : (!pat.isEmpty && pat.isPrefixOf (c :: rest)) = true
        · have hp := pat_length_pos_of_match pat c rest h
          simp only [replaceAllF, h, if_true]
          congr 1
          apply ih
          · simp only [List.length_drop, List.length_cons]
            simp only [List.length_cons] at h1
            omega
          · simp only [List.length_drop, List.length_cons]
            simp only [List.length_cons] at h2
            omega
        · rw [Bool.not_eq_true] at h
          simp only [replaceAllF, h, Bool.false_eq_true, if_false]
          congr 1
          apply ih
          · simp only [List.length_cons] at h1
            omega
          · simp only [List.length_cons] at h2
            omega

theorem replaceAll_nil (pat repl : List Char) : replaceAll pat repl [] = [] := rfl

theorem replaceAll_cons_match (pat repl : List Char) (c : Char) (rest : List Char)
    (h : (!pat.isEmpty && pat.isPrefixOf (c :: rest)) = true) :
    replaceAll pat repl (c :: rest)
      = repl ++ replaceAll pat repl ((c :: rest).drop pat.length) := by
  have hp := pat_length_pos_of_match pat c rest h
  unfold replaceAll
  simp only [List.length_cons, replaceAllF, h, if_true]
  congr 1
  apply replaceAllF_fuel
  · simp only [List.length_drop, List.length_cons]
    omega
  · exact le_rfl

theorem replaceAll_cons_nomatch (pat repl : List Char) (c : Char) (rest : List Char)
    (h : ¬ (!pat.isEmpty && pat.isPrefixOf (c :: rest)) = true) :
    replaceAll pat repl (c :: rest) = c :: replaceAll pat repl rest := by
  rw [Bool.not_eq_true] at h
  unfold replaceAll
  simp only [List.length_cons, replaceAllF, h, Bool.false_eq_true, if_false]

theorem splitGapsF_nil (acc : List Char) (fuel : Nat) :
    splitGapsF fuel acc [] = [acc.reverse] := by
  cases fuel <;> rfl

theorem splitGapsF_fuel :
    ∀ (f₁ : Nat) (l acc : List Char) (f₂ : Nat), l.length ≤ f₁ → l.length ≤ f₂ →
      splitGapsF f₁ acc l = splitGapsF f₂ acc l := by
  intro f₁
  induction f₁ with
  | zero =>
    intro l acc f₂ h1 _
    have hl : l = [] := List.eq_nil_of_length_eq_zero (Nat.le_zero.mp h1)
    subst hl
    rw [splitGapsF_nil, splitGapsF_nil]
  | succ f ih =>
    intro l acc f₂ h1 h2
    cases l with
    | nil => rw [splitGapsF_nil, splitGapsF_nil]
    | cons c rest =>
      cases f₂ with
      | zero => simp at h2
      | succ f₂' =>
        have hdw : (rest.dropWhile isPySpace).length ≤ rest.length :=
          (List.dropWhile_sublist isPySpace).length_le
        simp only [List.length_cons] at h1 h2
        by_cases h : (lastIsEndPunct acc && isPySpace c) = true
        · simp only [splitGapsF, h, if_true]
          rw [ih _ _ f₂' (by omega) (by omega)]
        · rw [Bool.not_eq_true] at h
          simp only [splitGapsF, h, Bool.false_eq_true, if_false]
          rw [ih _ _ f₂' (by omega) (by omega)]

/-- The splitter's scan with fuel fixed to the remaining input length; the
natural recursion equations below hold for it, and `splitGaps` is its
top-level instance. -/
def sgRun (acc l : List Char) : List (List Char) := splitGapsF l.length acc l

theorem splitGaps_eq_sgRun (s : List Char) : splitGaps s = sgRun [] s := rfl

theorem sgRun_nil (acc : List Char) : sgRun acc [] = [acc.reverse] := rfl

theorem sgRun_cons_gap (acc : List Char) (c : Char) (rest : List Char)
    (h : (lastIsEndPunct acc && isPySpace c) = true) :
    sgRun acc (c :: rest) = acc.reverse :: sgRun [] (rest.dropWhile isPySpace) := by
  unfold sgRun
  simp only [List.length_cons, splitGapsF, h, if_true]
  congr 1
  apply splitGapsF_fuel
  · exact (List.dropWhile_sublist isPySpace).length_le
  · exact le_rfl

theorem sgRun_cons_nogap (acc : List Char) (c : Char) (rest : List Char)
    (h : ¬ (lastIsEndPunct acc && isPySpace c) = true) :
    sgRun acc (c :: rest) = sgRun (c :: acc) rest := by
  rw [Bool.not_eq_true] at h
  unfold sgRun
  simp only [List.length_cons, splitGapsF, h, Bool.false_eq_true, if_false]

/-! ## C10 machinery: the abbreviation-protection round trip -/

/-- `Enc u t`: `u` is obtained from `t` by replacing some of `t`'s dots with
the `<DOT>` placeholder. -/
inductive Enc : List Char → List Char → Prop
  | nil : Enc [] []
  | dot {u t : List Char} : Enc u t →
      Enc ('<' :: 'D' :: 'O' :: 'T' :: '>' :: u) ('.' :: t)
  | ch (c : Char) {u t : List Char} : Enc u t → Enc (c :: u) (c :: t)

theorem enc_refl (t : List Char) : Enc t t := by
  induction t with
  | nil => exact .nil
  | cons c rest ih => exact .ch c ih

theorem nomatch_of_not_prefixOf (pat : List Char) (c : Char) (rest : List Char)
    (h : ¬ pat.isPrefixOf (c :: rest) = true) :
    ¬ (!pat.isEmpty && pat.isPrefixOf (c :: rest)) = true := by
  simp only [Bool.and_eq_true]
  exact fun hh => h hh.2

/-- Appending the protected form of `p` on the left preserves `Enc`. -/
theorem enc_protectPat_append (p : List Char) {X Y : List Char} (h : Enc X Y) :
    Enc (protectPat p ++ X) (p ++ Y) := by
  induction p with
  | nil => simpa [protectPat, replaceAll_nil] using h
  | cons c q ih =>
    by_cases hc : c = '.'
    · subst hc
      have hm : (!(['.'] : List Char).isEmpty
          && (['.'] : List Char).isPrefixOf ('.' :: q)) = true := by
        simp [List.isPrefixOf]
      rw [protectPat, replaceAll_cons_match _ _ _ _ hm]
      simp only [List.length_singleton, List.drop_succ_cons, List.drop_zero,
        dotTok, List.cons_append, List.append_assoc]
      exact Enc.dot (by simpa [protectPat] using ih)
    · have hm : ¬ (['.'] : List Char).isPrefixOf (c :: q) = true := by
        simp only [List.isPrefixOf, Bool.and_eq_true, beq_iff_eq]
        exact fun hh => hc hh.1.symm
      rw [protectPat, replaceAll_cons_nomatch _ _ _ _ (nomatch_of_not_prefixOf _ _ _ hm)]
      simp only [List.cons_append]
      exact Enc.ch c (by simpa [protectPat] using ih)

/-- A pattern containing no `<` that is a prefix of `u` covers only copied
characters: it is also a prefix of `t`, and `Enc` survives dropping it. -/
theorem enc_prefix_copy :
    ∀ (p u t : List Char), Enc u t → p.isPrefixOf u = true → '<' ∉ p →
      p.isPrefixOf t = true ∧ Enc (u.drop p.length) (t.drop p.length) := by
  intro p
  induction p with
  | nil =>
    intro u t h _ _
    simpa [List.isPrefixOf] using h
  | cons c q ih =>
    intro u t henc hpre hni
    cases henc with
    | nil => simp [List.isPrefixOf] at hpre
    | dot h' =>
      exfalso
      simp only [List.isPrefixOf, Bool.and_eq_true, beq_iff_eq] at hpre
      exact hni (hpre.1 ▸ List.mem_cons_self c q)
    | ch d h' =>
      simp only [List.isPrefixOf, Bool.and_eq_true, beq_iff_eq] at hpre
      obtain ⟨hcd, hq⟩ := hpre
      subst hcd
      have hni' : '<' ∉ q := fun hh => hni (List.mem_cons_of_mem _ hh)
      obtain ⟨h1, h2⟩ := ih _ _ h' hq hni'
      constructor
      · simp [List.isPrefixOf, h1]
      · simpa [List.drop_succ_cons] using h2

theorem not_prefix_of_lt_cons (p : List Char) (hd : '.' ∈ p) (hlt : '<' ∉ p)
    (l : List Char) : ¬ p.isPrefixOf ('<' :: l) = true := by
  intro hpre
  cases p with
  | nil => simp at hd
  | cons c q =>
    simp only [List.isPrefixOf, Bool.and_eq_true, beq_iff_eq] at hpre
    exact hlt (hpre.1 ▸ List.mem_cons_self c q)

/-- A pattern containing a dot but no `>` cannot start inside the
letters-then-`>` tail of a placeholder. -/
theorem not_prefix_of_block_tail :
    ∀ (w p l : List Char), '.' ∈ p → '>' ∉ p → (∀ a ∈ w, a ≠ '.' ∧ a ≠ '>') →
      ¬ p.isPrefixOf (w ++ '>' :: l) = true := by
  intro w
  induction w with
  | nil =>
    intro p l hd hgt _ hpre
    cases p with
    | nil => simp at hd
    | cons c q =>
      simp only [List.nil_append, List.isPrefixOf, Bool.and_eq_true,
        beq_iff_eq] at hpre
      exact hgt (hpre.1 ▸ List.mem_cons_self c q)
  | cons a w' ih =>
    intro p l hd hgt hw hpre
    cases p with
    | nil => simp at hd
    | cons c q =>
      simp only [List.cons_append, List.isPrefixOf, Bool.and_eq_true,
        beq_iff_eq] at hpre
      obtain ⟨hca, hq⟩ := hpre
      have ha := (hw a (List.mem_cons_self a w')).1
      have hd' : '.' ∈ q := by
        rcases List.mem_cons.mp hd with h | h
        · exfalso
          apply ha
          rw [← hca, ← h]
        · exact h
      have hgt' : '>' ∉ q := fun hh => hgt (List.mem_cons_of_mem _ hh)
      exact ih q l hd' hgt' (fun b hb => hw b (List.mem_cons_of_mem _ hb)) hq

/-- Protecting one abbreviation (a pattern with a dot and no angle
brackets) preserves `Enc`. -/
theorem enc_replaceAll (p : List Char) (hd : '.' ∈ p) (hlt : '<' ∉ p)
    (hgt : '>' ∉ p) :
    ∀ (n : Nat) (u t : List Char), u.length ≤ n → Enc u t →
      Enc (replaceAll p (protectPat p) u) t := by
  intro n
  induction n with
  | zero =>
    intro u t hlen henc
    have hu : u = [] := List.eq_nil_of_length_eq_zero (Nat.le_zero.mp hlen)
    subst hu
    rw [replaceAll_nil]
    exact henc
  | succ n ih =>
    intro u t hlen henc
    have hplen : 0 < p.length := by
      cases p
      · simp at hd
      · simp
    cases henc with
    | nil =>
      rw [replaceAll_nil]
      exact .nil
    | dot h' =>
      rename_i u0 t0
      rw [replaceAll_cons_nomatch _ _ '<' ('D' :: 'O' :: 'T' :: '>' :: u0)
          (nomatch_of_not_prefixOf _ _ _ (not_prefix_of_lt_cons p hd hlt _)),
        replaceAll_cons_nomatch _ _ 'D' ('O' :: 'T' :: '>' :: u0)
          (nomatch_of_not_prefixOf p 'D' ('O' :: 'T' :: '>' :: u0)
            (not_prefix_of_block_tail ['D', 'O', 'T'] p u0 hd hgt (by decide))),
        replaceAll_cons_nomatch _ _ 'O' ('T' :: '>' :: u0)
          (nomatch_of_not_prefixOf p 'O' ('T' :: '>' :: u0)
            (not_prefix_of_block_tail ['O', 'T'] p u0 hd hgt (by decide))),
        replaceAll_cons_nomatch _ _ 'T' ('>' :: u0)
          (nomatch_of_not_prefixOf p 'T' ('>' :: u0)
            (not_prefix_of_block_tail ['T'] p u0 hd hgt (by decide))),
        replaceAll_cons_nomatch _ _ '>' u0
          (nomatch_of_not_prefixOf p '>' u0
            (not_prefix_of_block_tail [] p u0 hd hgt (by decide)))]
      apply Enc.dot
      apply ih u0 t0 _ h'
      simp only [List.length_cons] at hlen
      omega
    | ch c h' =>
      rename_i u0 t0
      by_cases hm : p.isPrefixOf (c :: u0) = true
      · have hmm : (!p.isEmpty && p.isPrefixOf (c :: u0)) = true := by
          simp only [Bool.and_eq_true]
          refine ⟨?_, hm⟩
          cases p
          · simp at hd
          · simp
        rw [replaceAll_cons_match _ _ _ _ hmm]
        obtain ⟨hpt, hdrop⟩ := enc_prefix_copy p _ _ (Enc.ch c h') hm hlt
        have hpre : p <+: (c :: t0) := List.isPrefixOf_iff_prefix.mp hpt
        obtain ⟨s, hs⟩ := hpre
        have hds : (c :: t0).drop p.length = s := by
          rw [← hs, List.drop_left]
        rw [← hs]
        apply enc_protectPat_append p
        rw [hds] at hdrop
        apply ih _ _ _ hdrop
        simp only [List.length_drop, List.length_cons]
        simp only [List.length_cons] at hlen
        omega
      · rw [replaceAll_cons_nomatch _ _ _ _ (nomatch_of_not_prefixOf _ _ _ hm)]
        apply Enc.ch c
        apply ih u0 t0 _ h'
        simp only [List.length_cons] at hlen
        omega

/-- The full protection pass preserves `Enc`. -/
theorem enc_protectText (t : List Char) : Enc (protectText t) t := by
  have habbr : ∀ p ∈ abbreviations, '.' ∈ p ∧ '<' ∉ p ∧ '>' ∉ p := by decide
  suffices h : ∀ (l : List (List Char)) (s : List Char),
      (∀ p ∈ l, '.' ∈ p ∧ '<' ∉ p ∧ '>' ∉ p) → Enc s t →
      Enc (l.foldl (fun acc abbr => replaceAll abbr (protectPat abbr) acc) s) t by
    exact h abbreviations t habbr (enc_refl t)
  intro l
  induction l with
  | nil =>
    intro s _ h
    simpa using h
  | cons p l' ih =>
    intro s hl h
    rw [List.foldl_cons]
    obtain ⟨h1, h2, h3⟩ := hl p (List.mem_cons_self p l')
    exact ih _ (fun q hq => hl q (List.mem_cons_of_mem _ hq))
      (enc_replaceAll p h1 h2 h3 s.length s t le_rfl h)

theorem restoreDots_nil : restoreDots [] = [] := rfl

theorem restoreDots_block (u0 : List Char) :
    restoreDots ('<' :: 'D' :: 'O' :: 'T' :: '>' :: u0) = '.' :: restoreDots u0 := by
  unfold restoreDots
  rw [replaceAll_cons_match _ _ _ _
    (by simp [dotTok, List.isPrefixOf])]
  simp [dotTok]

/-- Undoing the placeholders recovers the original text, provided the
original did not itself contain `<DOT>`. -/
theorem restoreDots_enc :
    ∀ (n : Nat) (u t : List Char), u.length ≤ n → Enc u t →
      ¬ dotTok <:+: t → restoreDots u = t := by
  intro n
  induction n with
  | zero =>
    intro u t hlen henc _
    have hu : u = [] := List.eq_nil_of_length_eq_zero (Nat.le_zero.mp hlen)
    subst hu
    cases henc
    rfl
  | succ n ih =>
    intro u t hlen henc hNoTok
    cases henc with
    | nil => rfl
    | dot h' =>
      rename_i u0 t0
      rw [restoreDots_block]
      congr 1
      apply ih u0 t0 _ h' (fun hh => hNoTok (List.infix_cons hh))
      simp only [List.length_cons] at hlen
      omega
    | ch c h' =>
      rename_i u0 t0
      by_cases hm : dotTok.isPrefixOf (c :: u0) = true
      · exfalso
        simp only [dotTok, List.isPrefixOf, Bool.and_eq_true, beq_iff_eq] at hm
        obtain ⟨hc, hm2⟩ := hm
        obtain ⟨hpt, _⟩ := enc_prefix_copy ['D', 'O', 'T', '>'] u0 t0 h'
          (by exact hm2) (by decide)
        obtain ⟨s, hs⟩ := List.isPrefixOf_iff_prefix.mp hpt
        apply hNoTok
        refine List.IsPrefix.isInfix ⟨s, ?_⟩
        rw [← hc]
        show '<' :: (['D', 'O', 'T', '>'] ++ s) = '<' :: t0
        rw [hs]
      · have hrw : restoreDots (c :: u0) = c :: restoreDots u0 := by
          unfold restoreDots
          rw [replaceAll_cons_nomatch _ _ _ _ (nomatch_of_not_prefixOf _ _ _ hm)]
        rw [hrw]
        congr 1
        apply ih u0 t0 _ h' (fun hh => hNoTok (List.infix_cons hh))
        simp only [List.length_cons] at hlen
        omega

theorem restoreDots_head (x : List Char)
    (hx : ∀ c, x.head? = some c → isPySpace c = false) :
    ∀ c, (restoreDots x).head? = some c → isPySpace c = false := by
  cases x with
  | nil =>
    intro c hc
    rw [restoreDots_nil] at hc
    simp at hc
  | cons a u0 =>
    by_cases hm : dotTok.isPrefixOf (a :: u0) = true
    · intro c hc
      unfold restoreDots at hc
      rw [replaceAll_cons_match _ _ _ _
        (by simp only [Bool.and_eq_true]; exact ⟨by simp [dotTok], hm⟩)] at hc
      simp only [List.singleton_append, List.head?_cons, Option.some.injEq] at hc
      subst hc
      decide
    · intro c hc
      have hrw : restoreDots (a :: u0) = a :: restoreDots u0 := by
        unfold restoreDots
        rw [replaceAll_cons_nomatch _ _ _ _ (nomatch_of_not_prefixOf _ _ _ hm)]
      rw [hrw] at hc
      simp only [List.head?_cons, Option.some.injEq] at hc
      subst hc
      exact hx a (by simp)

theorem restoreDots_last :
    ∀ (n : Nat) (x : List Char), x.length ≤ n → x ≠ [] →
      (∀ c, x.getLast? = some c → isPySpace c = false) →
      restoreDots x ≠ []
      ∧ (∀ c, (restoreDots x).getLast? = some c → isPySpace c = false) := by
  intro n
  induction n with
  | zero =>
    intro x hlen hne _
    exact absurd (List.eq_nil_of_length_eq_zero (Nat.le_zero.mp hlen)) hne
  | succ n ih =>
    intro x hlen hne hx
    cases x with
    | nil => exact absurd rfl hne
    | cons a u0 =>
      by_cases hm : dotTok.isPrefixOf (a :: u0) = true
      · obtain ⟨s, hs⟩ := List.isPrefixOf_iff_prefix.mp hm
        have hblock : ('<' : Char) :: 'D' :: 'O' :: 'T' :: '>' :: s = a :: u0 := hs
        have hrw : restoreDots (a :: u0) = '.' :: restoreDots s := by
          rw [← hblock, restoreDots_block]
        rw [hrw]
        cases s with
        | nil =>
          refine ⟨by simp, ?_⟩
          intro c hc
          simp only [restoreDots_nil, List.getLast?_singleton, Option.some.injEq] at hc
          subst hc
          decide
        | cons b s' =>
          have hslen : (b :: s').length ≤ n := by
            have hlc := congrArg List.length hblock
            simp only [List.length_cons] at hlc hlen ⊢
            omega
          have hlast : ∀ c, (b :: s').getLast? = some c → isPySpace c = false := by
            intro c hc
            apply hx c
            rw [← hblock]
            show (['<', 'D', 'O', 'T', '>'] ++ b :: s').getLast? = some c
            rw [List.getLast?_append, hc]
            rfl
          obtain ⟨hne', hgl⟩ := ih (b :: s') hslen (by simp) hlast
          refine ⟨by simp, ?_⟩
          intro c hc
          cases hr : restoreDots (b :: s') with
          | nil => exact absurd hr hne'
          | cons d rd =>
            rw [hr, List.getLast?_cons_cons] at hc
            exact hgl c (by rw [hr]; exact hc)
      · have hrw : restoreDots (a :: u0) = a :: restoreDots u0 := by
          unfold restoreDots
          rw [replaceAll_cons_nomatch _ _ _ _ (nomatch_of_not_prefixOf _ _ _ hm)]
        rw [hrw]
        cases u0 with
        | nil =>
          refine ⟨by simp, ?_⟩
          intro c hc
          simp only [restoreDots_nil, List.getLast?_singleton, Option.some.injEq] at hc
          subst hc
          exact hx a (by simp)
        | cons b u0' =>
          have hlast : ∀ c, (b :: u0').getLast? = some c → isPySpace c = false := by
            intro c hc
            exact hx c (by rw [List.getLast?_cons_cons]; exact hc)
          obtain ⟨hne', hgl⟩ := ih (b :: u0')
            (by simp only [List.length_cons] at hlen ⊢; omega) (by simp) hlast
          refine ⟨by simp, ?_⟩
          intro c hc
          cases hr : restoreDots (b :: u0') with
          | nil => exact absurd hr hne'
          | cons d rd =>
            rw [hr, List.getLast?_cons_cons] at hc
            exact hgl c (by rw [hr]; exact hc)

/-- A space-free pattern matches at a position before a separating space
iff it matches within the left part alone. -/
theorem isPrefixOf_append_space :
    ∀ (pat X b : List Char), ' ' ∉ pat →
      pat.isPrefixOf (X ++ ' ' :: b) = pat.isPrefixOf X := by
  intro pat
  induction pat with
  | nil =>
    intro X b _
    simp [List.isPrefixOf]
  | cons p q ih =>
    intro X b hsp
    cases X with
    | nil =>
      simp only [List.nil_append, List.isPrefixOf]
      have hp : (p == ' ') = false := by
        simp only [beq_eq_false_iff_ne]
        exact fun hh => hsp (hh ▸ List.mem_cons_self p q)
      simp [hp]
    | cons x X' =>
      simp only [List.cons_append, List.isPrefixOf, List.append_eq]
      rw [ih X' b (fun hh => hsp (List.mem_cons_of_mem _ hh))]

/-- Replacement with a space-free pattern distributes over a separating
space. -/
theorem replaceAll_append_space (pat repl : List Char) (hne : pat ≠ [])
    (hsp : ' ' ∉ pat) :
    ∀ (n : Nat) (a b : List Char), a.length ≤ n →
      replaceAll pat repl (a ++ ' ' :: b)
        = replaceAll pat repl a ++ ' ' :: replaceAll pat repl b := by
  have hspace : ∀ b : List Char, replaceAll pat repl (' ' :: b)
      = ' ' :: replaceAll pat repl b := by
    intro b
    apply replaceAll_cons_nomatch
    apply nomatch_of_not_prefixOf
    intro hpre
    rw [show (' ' : Char) :: b = [] ++ ' ' :: b from rfl,
      isPrefixOf_append_space pat [] b hsp] at hpre
    cases pat with
    | nil => exact hne rfl
    | cons p q => simp [List.isPrefixOf] at hpre
  intro n
  induction n with
  | zero =>
    intro a b hlen
    have ha : a = [] := List.eq_nil_of_length_eq_zero (Nat.le_zero.mp hlen)
    subst ha
    simp only [List.nil_append, replaceAll_nil]
    exact hspace b
  | succ n ih =>
    intro a b hlen
    cases a with
    | nil =>
      simp only [List.nil_append, replaceAll_nil]
      exact hspace b
    | cons c a' =>
      have hPR := isPrefixOf_append_space pat (c :: a') b hsp
      simp only [List.cons_append]
      by_cases hm : pat.isPrefixOf (c :: a') = true
      · have hnonempty : (!pat.isEmpty) = true := by
          cases pat
          · exact absurd rfl hne
          · simp
        have hm' : pat.isPrefixOf (c :: (a' ++ ' ' :: b)) = true := by
          rw [show (c : Char) :: (a' ++ ' ' :: b) = (c :: a') ++ ' ' :: b from rfl,
            hPR]
          exact hm
        have hc1 : (!pat.isEmpty && pat.isPrefixOf (c :: (a' ++ ' ' :: b))) = true := by
          simp only [Bool.and_eq_true]
          exact ⟨hnonempty, hm'⟩
        have hc2 : (!pat.isEmpty && pat.isPrefixOf (c :: a')) = true := by
          simp only [Bool.and_eq_true]
          exact ⟨hnonempty, hm⟩
        rw [replaceAll_cons_match _ _ _ _ hc1, replaceAll_cons_match _ _ _ _ hc2]
        have hlep : pat.length ≤ (c :: a').length :=
          (List.isPrefixOf_iff_prefix.mp hm).length_le
        have hplen : 0 < pat.length := by
          cases pat
          · exact absurd rfl hne
          · simp
        have hdr : (c :: (a' ++ ' ' :: b)).drop pat.length
            = ((c :: a').drop pat.length) ++ ' ' :: b := by
          rw [show (c : Char) :: (a' ++ ' ' :: b) = (c :: a') ++ ' ' :: b from rfl]
          exact List.drop_append_of_le_length hlep
        rw [hdr, ih _ b (by
          simp only [List.length_drop, List.length_cons]
          simp only [List.length_cons] at hlen
          omega)]
        rw [List.append_assoc]
      · have hm' : ¬ pat.isPrefixOf (c :: (a' ++ ' ' :: b)) = true := by
          rw [show (c : Char) :: (a' ++ ' ' :: b) = (c :: a') ++ ' ' :: b from rfl,
            hPR]
          exact hm
        rw [replaceAll_cons_nomatch _ _ _ _ (nomatch_of_not_prefixOf _ _ _ hm'),
          replaceAll_cons_nomatch _ _ _ _ (nomatch_of_not_prefixOf _ _ _ hm)]
        rw [ih a' b (by simp only [List.length_cons] at hlen; omega)]
        rfl

/-- Restoring the placeholders commutes with joining parts by single
spaces. -/
theorem restoreDots_joinSpace :
    ∀ parts : List (List Char),
      restoreDots (joinSpace parts) = joinSpace (parts.map restoreDots) := by
  intro parts
  induction parts with
  | nil => rfl
  | cons s rest ih =>
    cases rest with
    | nil => rfl
    | cons t rest' =>
      show restoreDots (s ++ ' ' :: joinSpace (t :: rest')) = _
      unfold restoreDots
      rw [replaceAll_append_space dotTok ['.'] (by decide) (by decide)
        s.length s _ le_rfl]
      show restoreDots s ++ ' ' :: restoreDots (joinSpace (t :: rest'))
        = joinSpace (restoreDots s :: restoreDots t :: rest'.map restoreDots)
      rw [show joinSpace (restoreDots s :: restoreDots t :: rest'.map restoreDots)
          = restoreDots s ++ ' ' :: joinSpace (restoreDots t :: rest'.map restoreDots)
        from rfl]
      rw [ih]
      rfl

theorem enc_space_mem {u t : List Char} (h : Enc u t) :
    ∀ c ∈ u, isPySpace c = true → c ∈ t := by
  induction h with
  | nil => simp
  | dot h' ih =>
    intro c hc hsp
    simp only [List.mem_cons] at hc
    rcases hc with h1 | h1 | h1 | h1 | h1 | h1
    · subst h1; exact absurd hsp (by decide)
    · subst h1; exact absurd hsp (by decide)
    · subst h1; exact absurd hsp (by decide)
    · subst h1; exact absurd hsp (by decide)
    · subst h1; exact absurd hsp (by decide)
    · exact List.mem_cons_of_mem _ (ih c h1 hsp)
  | ch d h' ih =>
    intro c hc hsp
    rcases List.mem_cons.mp hc with h1 | h1
    · subst h1; exact List.mem_cons_self _ _
    · exact List.mem_cons_of_mem _ (ih c h1 hsp)

theorem enc_head_space {u t : List Char} (h : Enc u t) (c : Char)
    (hsp : isPySpace c = true) : u.head? = some c → t.head? = some c := by
  cases h with
  | nil => intro hh; exact hh
  | dot h' =>
    intro hh
    simp only [List.head?_cons, Option.some.injEq] at hh
    subst hh
    exact absurd hsp (by decide)
  | ch d h' =>
    intro hh
    simpa using hh

theorem enc_getLast_space :
    ∀ {u t : List Char}, Enc u t → ∀ c, isPySpace c = true →
      u.getLast? = some c → t.getLast? = some c := by
  intro u t h
  induction h with
  | nil => intro c _ hh; simp at hh
  | dot h' ih =>
    rename_i u0 t0
    intro c hsp hh
    cases u0 with
    | nil =>
      simp only [List.getLast?_cons_cons, List.getLast?_singleton,
        Option.some.injEq] at hh
      subst hh
      exact absurd hsp (by decide)
    | cons b u0' =>
      simp only [List.getLast?_cons_cons] at hh
      have ht0 := ih c hsp hh
      have ht0ne : t0 ≠ [] := by
        intro he
        subst he
        cases h'
      cases t0 with
      | nil => exact absurd rfl ht0ne
      | cons e t0' =>
        simp only [List.getLast?_cons_cons]
        exact ht0
  | ch d h' ih =>
    rename_i u0 t0
    intro c hsp hh
    cases u0 with
    | nil =>
      have ht0 : t0 = [] := by
        cases h'
        rfl
      subst ht0
      simpa using hh
    | cons b u0' =>
      simp only [List.getLast?_cons_cons] at hh
      have ht0 := ih c hsp hh
      have ht0ne : t0 ≠ [] := by
        intro he
        subst he
        cases h'
      cases t0 with
      | nil => exact absurd rfl ht0ne
      | cons e t0' =>
        simp only [List.getLast?_cons_cons]
        exact ht0

theorem noTwoSpaces_cons_of_nonspace (a : Char) (l : List Char)
    (ha : isPySpace a = false) : noTwoSpaces (a :: l) = noTwoSpaces l := by
  cases l with
  | nil => simp [noTwoSpaces]
  | cons b l' => simp [noTwoSpaces, ha]

theorem noTwoSpaces_tail {a : Char} {l : List Char}
    (h : noTwoSpaces (a :: l) = true) : noTwoSpaces l = true := by
  cases l with
  | nil => rfl
  | cons b l' =>
    simp only [noTwoSpaces, Bool.and_eq_true] at h
    exact h.2

theorem enc_noTwoSpaces :
    ∀ {u t : List Char}, Enc u t → noTwoSpaces t = true → noTwoSpaces u = true := by
  intro u t h
  induction h with
  | nil => intro _; rfl
  | dot h' ih =>
    intro ht
    rw [noTwoSpaces_cons_of_nonspace _ _ (by decide),
      noTwoSpaces_cons_of_nonspace _ _ (by decide),
      noTwoSpaces_cons_of_nonspace _ _ (by decide),
      noTwoSpaces_cons_of_nonspace _ _ (by decide),
      noTwoSpaces_cons_of_nonspace _ _ (by decide)]
    exact ih (noTwoSpaces_tail ht)
  | ch d h' ih =>
    rename_i u0 t0
    intro ht
    cases hd : isPySpace d with
    | false =>
      rw [noTwoSpaces_cons_of_nonspace _ _ hd]
      exact ih (noTwoSpaces_tail ht)
    | true =>
      cases u0 with
      | nil => rfl
      | cons b u0' =>
        cases hb : isPySpace b with
        | false =>
          simp only [noTwoSpaces, hb, Bool.and_false, Bool.not_false,
            Bool.true_and]
          exact ih (noTwoSpaces_tail ht)
        | true =>
          exfalso
          have hh := enc_head_space h' b hb (by simp)
          cases t0 with
          | nil => simp at hh
          | cons e t0' =>
            simp only [List.head?_cons, Option.some.injEq] at hh
            subst hh
            simp [noTwoSpaces, hd, hb] at ht

theorem sgRun_ne_nil : ∀ (n : Nat) (l acc : List Char), l.length ≤ n →
    sgRun acc l ≠ [] := by
  intro n
  induction n with
  | zero =>
    intro l acc hlen
    have hl : l = [] := List.eq_nil_of_length_eq_zero (Nat.le_zero.mp hlen)
    subst hl
    simp [sgRun_nil]
  | succ n ih =>
    intro l acc hlen
    cases l with
    | nil => simp [sgRun_nil]
    | cons c rest =>
      by_cases hg : (lastIsEndPunct acc && isPySpace c) = true
      · rw [sgRun_cons_gap _ _ _ hg]
        simp
      · rw [sgRun_cons_nogap _ _ _ hg]
        apply ih
        simp only [List.length_cons] at hlen
        omega

theorem joinSpace_cons_of_ne_nil (s : List Char) (S : List (List Char))
    (h : S ≠ []) : joinSpace (s :: S) = s ++ ' ' :: joinSpace S := by
  cases S with
  | nil => exact absurd rfl h
  | cons t rest => rfl

theorem isPySpace_eq_false_of_isEndPunct (p : Char) (h : isEndPunct p = true) :
    isPySpace p = false := by
  simp only [isEndPunct, Bool.or_eq_true, beq_iff_eq] at h
  rcases h with (h | h) | h <;> subst h <;> decide

/-- Joining the splitter's parts with single spaces restores the scanned
text, provided all whitespace is single plain spaces. -/
theorem sgRun_join :
    ∀ (n : Nat) (l acc : List Char), l.length ≤ n →
      (∀ c ∈ l, isPySpace c = true → c = ' ') →
      noTwoSpaces l = true →
      joinSpace (sgRun acc l) = acc.reverse ++ l := by
  intro n
  induction n with
  | zero =>
    intro l acc hlen _ _
    have hl : l = [] := List.eq_nil_of_length_eq_zero (Nat.le_zero.mp hlen)
    subst hl
    simp [sgRun_nil, joinSpace]
  | succ n ih =>
    intro l acc hlen hsp htwo
    cases l with
    | nil => simp [sgRun_nil, joinSpace]
    | cons c rest =>
      simp only [List.length_cons] at hlen
      by_cases hg : (lastIsEndPunct acc && isPySpace c) = true
      · rw [sgRun_cons_gap _ _ _ hg]
        have hcsp : isPySpace c = true := by
          have h := hg
          simp only [Bool.and_eq_true] at h
          exact h.2
        have hc' : c = ' ' := hsp c (List.mem_cons_self c rest) hcsp
        have hdw : rest.dropWhile isPySpace = rest := by
          cases rest with
          | nil => rfl
          | cons b rest' =>
            have hb : isPySpace b = false := by
              simp only [noTwoSpaces, hcsp, Bool.true_and, Bool.and_eq_true,
                Bool.not_eq_true'] at htwo
              exact htwo.1
            exact List.dropWhile_cons_of_neg (by simp [hb])
        rw [hdw]
        rw [joinSpace_cons_of_ne_nil _ _ (sgRun_ne_nil rest.length rest [] le_rfl)]
        rw [ih rest [] (by omega) (fun d hd h => hsp d (List.mem_cons_of_mem _ hd) h)
          (noTwoSpaces_tail htwo)]
        simp [hc']
      · rw [sgRun_cons_nogap _ _ _ hg]
        rw [ih rest (c :: acc) (by omega)
          (fun d hd h => hsp d (List.mem_cons_of_mem _ hd) h)
          (noTwoSpaces_tail htwo)]
        simp

/-- Every part the splitter produces is nonempty with non-space first and
last characters, provided the scanned text has that shape. -/
theorem sgRun_parts :
    ∀ (n : Nat) (l acc : List Char), l.length ≤ n →
      noTwoSpaces l = true →
      (acc = [] → l ≠ []) →
      (∀ c, (acc.reverse ++ l).head? = some c → isPySpace c = false) →
      (∀ c, (acc.reverse ++ l).getLast? = some c → isPySpace c = false) →
      ∀ part ∈ sgRun acc l, part ≠ []
        ∧ (∀ c, part.head? = some c → isPySpace c = false)
        ∧ (∀ c, part.getLast? = some c → isPySpace c = false) := by
  intro n
  induction n with
  | zero =>
    intro l acc hlen _ hne hhead hlast part hp
    have hl : l = [] := List.eq_nil_of_length_eq_zero (Nat.le_zero.mp hlen)
    subst hl
    rw [sgRun_nil] at hp
    simp only [List.mem_singleton] at hp
    subst hp
    have hacc : acc ≠ [] := by
      intro he
      exact (hne he) rfl
    refine ⟨by simpa using hacc, ?_, ?_⟩
    · intro c hc
      apply hhead c
      rw [List.append_nil]
      exact hc
    · intro c hc
      apply hlast c
      rw [List.append_nil]
      exact hc
  | succ n ih =>
    intro l acc hlen htwo hne hhead hlast part hp
    cases l with
    | nil =>
      rw [sgRun_nil] at hp
      simp only [List.mem_singleton] at hp
      subst hp
      have hacc : acc ≠ [] := by
        intro he
        exact (hne he) rfl
      refine ⟨by simpa using hacc, ?_, ?_⟩
      · intro c hc
        apply hhead c
        rw [List.append_nil]
        exact hc
      · intro c hc
        apply hlast c
        rw [List.append_nil]
        exact hc
    | cons c0 rest =>
      simp only [List.length_cons] at hlen
      by_cases hg : (lastIsEndPunct acc && isPySpace c0) = true
      · have hacc : acc ≠ [] := by
          intro he
          subst he
          simp [lastIsEndPunct] at hg
        have hcsp : isPySpace c0 = true := by
          have h := hg
          simp only [Bool.and_eq_true] at h
          exact h.2
        have hrest_ne : rest ≠ [] := by
          intro he
          subst he
          have := hlast c0 (by rw [List.getLast?_append]; rfl)
          rw [this] at hcsp
          exact Bool.false_ne_true hcsp
        rw [sgRun_cons_gap _ _ _ hg] at hp
        rcases List.mem_cons.mp hp with hp1 | hp1
        · subst hp1
          refine ⟨by simpa using hacc, ?_, ?_⟩
          · intro c hc
            apply hhead c
            rw [List.head?_append, hc]
            rfl
          · intro c hc
            obtain ⟨p, acc', hacc'⟩ : ∃ p acc', acc = p :: acc' := by
              cases acc with
              | nil => exact absurd rfl hacc
              | cons p acc' => exact ⟨p, acc', rfl⟩
            have hpend : isEndPunct p = true := by
              have h := hg
              simp only [Bool.and_eq_true] at h
              rw [hacc'] at h
              exact h.1
            rw [hacc'] at hc
            rw [show (p :: acc').reverse = acc'.reverse ++ [p] from by simp] at hc
            rw [List.getLast?_append, List.getLast?_singleton] at hc
            rw [show ((some p).or (acc'.reverse.getLast?)) = some p from rfl] at hc
            simp only [Option.some.injEq] at hc
            subst hc
            exact isPySpace_eq_false_of_isEndPunct p hpend
        · have hdw : rest.dropWhile isPySpace = rest := by
            cases rest with
            | nil => rfl
            | cons b rest' =>
              have hb : isPySpace b = false := by
                simp only [noTwoSpaces, hcsp, Bool.true_and, Bool.and_eq_true,
                  Bool.not_eq_true'] at htwo
                exact htwo.1
              exact List.dropWhile_cons_of_neg (by simp [hb])
          rw [hdw] at hp1
          apply ih rest [] (by omega) (noTwoSpaces_tail htwo) (fun _ => hrest_ne)
            ?_ ?_ part hp1
          · intro c hc
            simp only [List.reverse_nil, List.nil_append] at hc
            cases rest with
            | nil => exact absurd rfl hrest_ne
            | cons b rest' =>
              simp only [List.head?_cons, Option.some.injEq] at hc
              subst hc
              simp only [noTwoSpaces, hcsp, Bool.true_and, Bool.and_eq_true,
                Bool.not_eq_true'] at htwo
              exact htwo.1
          · intro c hc
            simp only [List.reverse_nil, List.nil_append] at hc
            apply hlast c
            rw [List.getLast?_append]
            cases rest with
            | nil => exact absurd rfl hrest_ne
            | cons b rest' =>
              rw [List.getLast?_cons_cons, hc]
              rfl
      · rw [sgRun_cons_nogap _ _ _ hg] at hp
        apply ih rest (c0 :: acc) (by omega) (noTwoSpaces_tail htwo)
          (by intro he; exact absurd he (by simp)) ?_ ?_ part hp
        · intro c hc
          apply hhead c
          rw [show (c0 :: acc).reverse ++ rest = acc.reverse ++ c0 :: rest from by simp]
            at hc
          exact hc
        · intro c hc
          apply hlast c
          rw [show (c0 :: acc).reverse ++ rest = acc.reverse ++ c0 :: rest from by simp]
            at hc
          exact hc

theorem pyStrip_id (x : List Char)
    (hh : ∀ c, x.head? = some c → isPySpace c = false)
    (hl : ∀ c, x.getLast? = some c → isPySpace c = false) :
    pyStrip x = x := by
  unfold pyStrip
  have h1 : x.dropWhile isPySpace = x := by
    cases x with
    | nil => rfl
    | cons a l =>
      apply List.dropWhile_cons_of_neg
      simp [hh a (by simp)]
  rw [h1]
  have h2 : x.reverse.dropWhile isPySpace = x.reverse := by
    cases hx : x.reverse with
    | nil => rfl
    | cons a l =>
      have hga : x.getLast? = some a := by
        rw [← List.head?_reverse, hx]
        rfl
      apply List.dropWhile_cons_of_neg
      simp [hl a hga]
  rw [h2, List.reverse_reverse]

theorem map_strip_restore :
    ∀ parts : List (List Char),
      (∀ part ∈ parts, part ≠ []
        ∧ (∀ c, part.head? = some c → isPySpace c = false)
        ∧ (∀ c, part.getLast? = some c → isPySpace c = false)) →
      ((parts.map (fun part => pyStrip (restoreDots part))).filter
        (fun s => !s.isEmpty)) = parts.map restoreDots := by
  intro parts
  induction parts with
  | nil => intro _; rfl
  | cons p ps ih =>
    intro h
    obtain ⟨hne, hh, hl⟩ := h p (List.mem_cons_self p ps)
    obtain ⟨hne', hl'⟩ := restoreDots_last p.length p le_rfl hne hl
    have hstrip : pyStrip (restoreDots p) = restoreDots p :=
      pyStrip_id _ (restoreDots_head p hh) hl'
    have hcond : (!(restoreDots p).isEmpty) = true := by
      cases hr : restoreDots p with
      | nil => exact absurd hr hne'
      | cons d rd => simp
    simp only [List.map_cons, List.filter_cons, hstrip]
    rw [if_pos hcond, ih (fun q hq => h q (List.mem_cons_of_mem _ hq))]

/-- C10: on whitespace-normalized text containing no literal `<DOT>`, the
sentence splitter is lossless — joining its output with single spaces
reproduces the input exactly, and no returned sentence is empty. -/
theorem claim_C10_split_join (t : List Char)
    (hN : NormalizedText t = true) (hTok : ¬ dotTok <:+: t) :
    joinSpace (split_into_sentences t) = t
    ∧ ∀ s ∈ split_into_sentences t, s ≠ [] := by
  simp only [NormalizedText, Bool.and_eq_true, List.all_eq_true] at hN
  obtain ⟨⟨⟨hAll, hHead⟩, hLast⟩, hTwo⟩ := hN
  by_cases ht : t.isEmpty = true
  · have ht' : t = [] := by
      cases t
      · rfl
      · simp at ht
    subst ht'
    constructor
    · rfl
    · intro s hs
      simp [split_into_sentences] at hs
  · have htne : t ≠ [] := by
      intro he
      subst he
      exact ht rfl
    have hsplit : split_into_sentences t
        = ((sgRun [] (protectText t)).map
            (fun part => pyStrip (restoreDots part))).filter (fun s => !s.isEmpty) := by
      unfold split_into_sentences
      rw [if_neg ht, splitGaps_eq_sgRun]
    have hEnc : Enc (protectText t) t := enc_protectText t
    have hAllu : ∀ c ∈ protectText t, isPySpace c = true → c = ' ' := by
      intro c hc hsp
      have hct := enc_space_mem hEnc c hc hsp
      have h := hAll c hct
      simp only [Bool.or_eq_true, Bool.not_eq_true', beq_iff_eq] at h
      rcases h with h | h
      · rw [h] at hsp
        exact absurd hsp (by simp)
      · exact h
    have hTwou : noTwoSpaces (protectText t) = true := enc_noTwoSpaces hEnc hTwo
    have hHeadu : ∀ c, (protectText t).head? = some c → isPySpace c = false := by
      intro c hc
      cases hb : isPySpace c with
      | false => rfl
      | true =>
        have hth := enc_head_space hEnc c hb hc
        rw [hth] at hHead
        simp [hb] at hHead
    have hLastu : ∀ c, (protectText t).getLast? = some c → isPySpace c = false := by
      intro c hc
      cases hb : isPySpace c with
      | false => rfl
      | true =>
        have htl := enc_getLast_space hEnc c hb hc
        rw [htl] at hLast
        simp [hb] at hLast
    have hune : protectText t ≠ [] := by
      intro he
      rw [he] at hEnc
      cases hEnc
      exact htne rfl
    have hjoin : joinSpace (sgRun [] (protectText t)) = protectText t := by
      have h := sgRun_join (protectText t).length (protectText t) [] le_rfl hAllu hTwou
      simpa using h
    have hparts := sgRun_parts (protectText t).length (protectText t) [] le_rfl hTwou
      (fun _ => hune)
      (by intro c hc; exact hHeadu c (by simpa using hc))
      (by intro c hc; exact hLastu c (by simpa using hc))
    have hmap : ((sgRun [] (protectText t)).map
        (fun part => pyStrip (restoreDots part))).filter (fun s => !s.isEmpty)
        = (sgRun [] (protectText t)).map restoreDots :=
      map_strip_restore (sgRun [] (protectText t)) hparts
    constructor
    · rw [hsplit, hmap, ← restoreDots_joinSpace, hjoin]
      exact restoreDots_enc (protectText t).length (protectText t) t le_rfl hEnc hTok
    · intro s hs
      rw [hsplit, hmap] at hs
      obtain ⟨part, hpmem, hpe⟩ := List.mem_map.mp hs
      obtain ⟨hpne, _, hl⟩ := hparts part hpmem
      obtain ⟨hne', _⟩ := restoreDots_last part.length part le_rfl hpne hl
      exact hpe ▸ hne'

/-- C10 (witness): the lossless split on a concrete normalized text with
protected abbreviations. -/
theorem claim_C10_witness :
    NormalizedText "Dr. Smith met Mr. Jones. They talked. All was well.".toList = true
    ∧ joinSpace (split_into_sentences
        "Dr. Smith met Mr. Jones. They talked. All was well.".toList)
      = "Dr. Smith met Mr. Jones. They talked. All was well.".toList :=
  ⟨by decide,
   (claim_C10_split_join "Dr. Smith met Mr. Jones. They talked. All was well.".toList
     (by decide) (by decide)).1⟩
